import Mathlib

/-!
Verification of the interactive setup script (`scripts/setup.ts`) of the
bun-typescript-starter template.  Strings are modelled as `List Char`.
JavaScript's `String.prototype.replaceAll` with a literal (non-regex,
nonempty) search string scans the subject left to right, replaces each
leftmost non-overlapping occurrence and never rescans inserted text; the
replacement string is not inserted verbatim but first run through the
ECMAScript `GetSubstitution` abstract operation, which interprets the
dollar escapes even for a plain string search value.  The scan is
modelled by `replaceAll` below (via `getSub` for the substitution),
defined with an explicit fuel so that it is structurally recursive and
computable by the kernel.  External processes (git, gh, bun) are
modelled by their observable data: exit codes and captured streams,
supplied as inputs.
-/

/-- ECMAScript `GetSubstitution` for a string search value (so with no
capture groups and no named captures): in the replacement template the
pair `$$` inserts a dollar, `$&` inserts the matched search string, a
dollar followed by a backquote inserts the portion of the original
subject before the match, `$` followed by a single quote inserts the
portion after it, and any other dollar (including a trailing one, `$n`
with no capture groups, and `$<`) is literal. -/
def getSub (matched before after : List Char) : List Char → List Char
  | [] => []
  | [c] => [c]
  | c :: x :: r =>
    if c = '$' then
      if x = '$' then '$' :: getSub matched before after r
      else if x = '&' then matched ++ getSub matched before after r
      else if x = '\x60' then before ++ getSub matched before after r
      else if x = '\x27' then after ++ getSub matched before after r
      else '$' :: getSub matched before after (x :: r)
    else c :: getSub matched before after (x :: r)

/-- Fuel-driven scanner for `content.replaceAll(p, v)`: `pre` accumulates
the consumed prefix of the original subject, so that at each leftmost
non-overlapping match the inserted text is `GetSubstitution` applied to
`v` with the matched string `p`, the original text before the match and
the original text after it.  Inserted text is never rescanned.  The fuel
only has to dominate the subject length. -/
def replF (p v : List Char) : List Char → Nat → List Char → List Char
  | _, _, [] => []
  | _, 0, s => s
  | pre, n + 1, c :: s =>
    if p ≠ [] ∧ p <+: (c :: s) then
      getSub p pre ((c :: s).drop p.length) v ++
        replF p v (pre ++ p) n ((c :: s).drop p.length)
    else
      c :: replF p v (pre ++ [c]) n s

/-- Model of `content.replaceAll(p, v)` for a nonempty literal pattern
(every pattern used by the script is one of the five nonempty placeholder
tokens). -/
def replaceAll (p v s : List Char) : List Char :=
  replF p v [] s.length s

/-- The scanner state in the middle of a `replaceAll` pass: `pre` is the
already consumed original prefix, `s` the remaining original subject. -/
def replPre (p v pre s : List Char) : List Char :=
  replF p v pre s.length s

/-- Auxiliary literal-insertion scanner: like `replaceAll` but inserting
the replacement value verbatim.  It agrees with `replaceAll` exactly when
the value contains no dollar character (`replaceAllEqScan`), which is the
regime in which the substitution is exhaustive. -/
def scanF (p v : List Char) : Nat → List Char → List Char
  | _, [] => []
  | 0, s => s
  | n + 1, c :: s =>
    if p ≠ [] ∧ p <+: (c :: s) then
      v ++ scanF p v n ((c :: s).drop p.length)
    else
      c :: scanF p v n s

/-- The literal-insertion scanner on a whole subject. -/
def scanReplace (p v s : List Char) : List Char :=
  scanF p v s.length s

/-- Fuel-driven counter of leftmost non-overlapping occurrences of `p`,
matching the occurrences that `replaceAll` substitutes. -/
def countF (p : List Char) : Nat → List Char → Nat
  | _, [] => 0
  | 0, _ => 0
  | n + 1, c :: s =>
    if p ≠ [] ∧ p <+: (c :: s) then
      countF p n ((c :: s).drop p.length) + 1
    else
      countF p n s

/-- Number of (leftmost, non-overlapping) occurrences of `p` in `s`. -/
def countOccs (p s : List Char) : Nat :=
  countF p s.length s

/-- The loop body of `replaceInFile`: `for (const [placeholder, value] of
Object.entries(replacements)) content = content.replaceAll(placeholder, value)`.
`Object.entries` enumerates the table in insertion order. -/
def applyReplacements (table : List (List Char × List Char)) (s : List Char) : List Char :=
  table.foldl (fun acc e => replaceAll e.1 e.2 acc) s

/-- The literal-insertion counterpart of `applyReplacements`, used to
transfer counting results to dollar-free tables. -/
def scanApply (table : List (List Char × List Char)) (s : List Char) : List Char :=
  table.foldl (fun acc e => scanReplace e.1 e.2 acc) s

/-- Whitespace recognized by the model of `String.prototype.trim`. -/
def isJsSpace (c : Char) : Bool :=
  c = ' ' || c = '\t' || c = '\n' || c = '\r' || c = '\x0b' || c = '\x0c'

/-- Model of `answer.trim()`. -/
def jsTrim (s : List Char) : List Char :=
  ((s.dropWhile isJsSpace).reverse.dropWhile isJsSpace).reverse

/-- Model of `s.toLowerCase()` (ASCII, which covers every comparison the
script performs). -/
def jsToLower (s : List Char) : List Char :=
  s.map Char.toLower

/-- Result of `question(prompt, defaultValue)`: the trimmed answer, or the
default when the trimmed answer is empty (`answer.trim() || defaultValue || ''`). -/
def questionResult (answer dflt : List Char) : List Char :=
  let t := jsTrim answer
  if t = [] then dflt else t

/-- Model of `hay.includes(needle)`. -/
def jsIncludes (needle hay : List Char) : Bool :=
  decide (needle <:+: hay)

/-- Model of `s.split(sep)` for a single-character separator. -/
def jsSplit (sep : Char) (s : List Char) : List (List Char) :=
  s.foldr
    (fun c acc =>
      match acc with
      | [] => [[c]]
      | a :: rest => if c = sep then [] :: a :: rest else (c :: a) :: rest)
    [[]]

/-- Placeholder token `{{PACKAGE_NAME}}`. -/
def tokPackage : List Char := "\x7b\x7bPACKAGE_NAME\x7d\x7d".toList

/-- Placeholder token `{{REPO_NAME}}`. -/
def tokRepo : List Char := "\x7b\x7bREPO_NAME\x7d\x7d".toList

/-- Placeholder token `{{GITHUB_USER}}`. -/
def tokUser : List Char := "\x7b\x7bGITHUB_USER\x7d\x7d".toList

/-- Placeholder token `{{DESCRIPTION}}`. -/
def tokDesc : List Char := "\x7b\x7bDESCRIPTION\x7d\x7d".toList

/-- Placeholder token `{{AUTHOR}}`. -/
def tokAuthor : List Char := "\x7b\x7bAUTHOR\x7d\x7d".toList

/-- The five tokens in the replacement table's insertion order. -/
def toks : List (List Char) := [tokPackage, tokRepo, tokUser, tokDesc, tokAuthor]

/-- The marker `'\x7b\x7b'` used by the already-configured check. -/
def openBraces : List Char := "\x7b\x7b".toList

/-- The replacement table built by `run`, in the insertion order of the
object literal. -/
def theReplacements (v1 v2 v3 v4 v5 : List Char) : List (List Char × List Char) :=
  [(tokPackage, v1), (tokRepo, v2), (tokUser, v3), (tokDesc, v4), (tokAuthor, v5)]

/-- The literal `'my-lib'`. -/
def myLib : List Char := "my-lib".toList

/-- Derivation of the default repository name from the package name:
`packageName.startsWith('@') ? packageName.split('/')[1] || 'my-lib' : packageName`
(`[1]` on a short array is `undefined`, and both `undefined` and `''` are
falsy, so either falls back to `'my-lib'`). -/
def defaultRepoName (packageName : List Char) : List Char :=
  if packageName.take 1 = ['@'] then
    (if (jsSplit '/' packageName).getD 1 [] = [] then myLib
     else (jsSplit '/' packageName).getD 1 [])
  else packageName

/-- A filesystem: an association of paths to text contents. -/
abbrev FS := List (List Char × List Char)

/-- Content of the file at `path`, when it exists (`readFileSync`, with
`existsSync path = (lookupFS fs path).isSome`). -/
def lookupFS : FS → List Char → Option (List Char)
  | [], _ => none
  | e :: rest, q => if e.1 = q then some e.2 else lookupFS rest q

/-- `writeFileSync`: overwrite the file if present, create it otherwise. -/
def writeFS : FS → List Char → List Char → FS
  | [], q, v => [(q, v)]
  | e :: rest, q, v => if e.1 = q then (q, v) :: rest else e :: writeFS rest q v

/-- `unlinkSync` (on a present file): remove the entry. -/
def removeFS : FS → List Char → FS
  | [], _ => []
  | e :: rest, q => if e.1 = q then removeFS rest q else e :: removeFS rest q

/-- Model of `replaceInFile(filePath, replacements)`: skip (and change
nothing) when the file does not exist, otherwise read it, run every table
entry through `replaceAll` and write the result back. -/
def replaceInFileFS (fs : FS) (path : List Char) (table : List (List Char × List Char)) : FS :=
  match lookupFS fs path with
  | none => fs
  | some content => writeFS fs path (applyReplacements table content)

/-- Path of the setup script itself. -/
def setupPath : List Char := "scripts/setup.ts".toList

/-- Path of the package manifest. -/
def pkgJsonPath : List Char := "package.json".toList

/-- Path of the changeset configuration (`join('.changeset', 'config.json')`). -/
def changesetPath : List Char := ".changeset/config.json".toList

/-- Self-removal step: `unlinkSync('scripts/setup.ts')`, then rewrite
`package.json` without its `setup` script entry (the JSON round trip is the
opaque `strip` function).  The whole block is wrapped in try/catch, so a
missing script file (or missing manifest) leaves the rest untouched. -/
def selfRemoveFS (fs : FS) (strip : List Char → List Char) : FS :=
  match lookupFS fs setupPath with
  | none => fs
  | some _ =>
    let fs1 := removeFS fs setupPath
    match lookupFS fs1 pkgJsonPath with
    | none => fs1
    | some content => writeFS fs1 pkgJsonPath (strip content)

/-- Composite result object returned by `configureGitHub` on success. -/
structure GhResult where
  success : Bool
  npmTokenConfigured : Bool
deriving DecidableEq

/-- Observable behaviour of the external `gh` calls made by
`configureGitHub`: exit codes of the merge-settings PATCH, the
branch-protection PUT (with its captured stderr) and `gh secret set`, plus
the optional `NPM_TOKEN` environment value. -/
structure ConfigureIn where
  repoSettingsExit : Nat
  protectionExit : Nat
  protectionStderr : List Char
  npmToken : Option (List Char)
  secretExit : Nat

/-- Result of `configureGitHub` plus instrumentation recording which steps
were attempted (a step is attempted when its external command is spawned). -/
structure ConfigureOut where
  result : Option GhResult
  settingsAttempted : Bool
  protectionAttempted : Bool
  secretAttempted : Bool
deriving DecidableEq

/-- The literal `'Not Found'` matched against the captured stderr. -/
def notFoundMarker : List Char := "Not Found".toList

/-- Model of `configureGitHub`: (1) merge-settings PATCH (failure only logs
a warning), (2) branch-protection PUT — on a nonzero exit the function
returns `false`, with a dedicated message when stderr contains
`'Not Found'` — and (3) `setRepoSecret` for `NPM_TOKEN` when the
environment provides one. -/
def configureGitHub (i : ConfigureIn) : ConfigureOut :=
  if i.protectionExit ≠ 0 then
    if jsIncludes notFoundMarker i.protectionStderr then
      ⟨none, true, true, false⟩
    else
      ⟨none, true, true, false⟩
  else
    match i.npmToken with
    | some _ => ⟨some ⟨true, i.secretExit = 0⟩, true, true, true⟩
    | none => ⟨some ⟨true, false⟩, true, true, false⟩

/-- A spawned command: its argument vector and optional stdin payload. -/
structure Cmd where
  argv : List (List Char)
  stdinData : Option (List Char)
deriving DecidableEq

/-- The command constructed by `setRepoSecret(repo, name, value)`:
`['gh', 'secret', 'set', name, '--repo', repo]` with the value supplied as
the stdin payload. -/
def setRepoSecretCmd (repo nm value : List Char) : Cmd :=
  ⟨["gh".toList, "secret".toList, "set".toList, nm, "--repo".toList, repo], some value⟩

/-- Workflow steps of `run`, in execution order, used to record which
steps a given execution performed. -/
inductive Step where
  | substitution
  | install
  | gitSetup
  | selfRemove
  | commit
  | github
  | summary
deriving DecidableEq

/-- The literal `'y'`. -/
def yStr : List Char := "y".toList

/-- The literal `'n'`. -/
def nStr : List Char := "n".toList

/-- The already-configured guard: the `Continue anyway? (y/N)` prompt is
shown when the manifest name has no `'\x7b\x7b'`, and any answer whose
lowercase differs from `'y'` (the default being `'n'`) cancels setup. -/
def continueCancelled (pkgNameField ans : List Char) : Bool :=
  !(jsIncludes openBraces pkgNameField) &&
    decide (jsToLower (questionResult ans nStr) ≠ yStr)

/-- The `Proceed with setup? (Y/n)` decision: setup is cancelled when the
answer (default `'y'`) lowercases to `'n'`. -/
def proceedCancelled (ans : List Char) : Bool :=
  decide (jsToLower (questionResult ans yStr) = nStr)

/-- A `(Y/n)` prompt answered affirmatively: the answer (default `'y'`)
does not lowercase to `'n'`. -/
def promptYes (ans : List Char) : Bool :=
  decide (jsToLower (questionResult ans yStr) ≠ nStr)

/-- Inputs of one execution of `run`: the parsed manifest name, the answer
to each prompt, and the observable behaviour of each external command. -/
structure RunInput where
  pkgNameField : List Char
  continueAnswer : List Char
  packageNameAnswer : List Char
  repoAnswer : List Char
  gitConfigOk : Bool
  gitUserOut : List Char
  githubUserAnswer : List Char
  descriptionAnswer : List Char
  authorAnswer : List Char
  confirmAnswer : List Char
  installExit : Nat
  hasGitDir : Bool
  stripSetup : List Char → List Char
  commitAnswer : List Char
  ghAuthExit : Nat
  setupGithubAnswer : List Char
  repoViewExit : Nat
  repoCreateExit : Nat
  remoteGetExit : Nat
  pushExit : Nat
  ghConfig : ConfigureIn

/-- Observable outcome of one execution of `run`: the process exit status,
the final filesystem, the workflow steps performed, and the two summary
flags. -/
structure RunOutput where
  exitCode : Nat
  fs : FS
  trace : List Step
  githubConfigured : Bool
  npmTokenConfigured : Bool

/-- Model of `run()` (the variant with the GitHub configurator).  Control
flows top to bottom: already-configured check, prompts, confirmation,
placeholder substitution, `bun install` (fatal on failure), git setup,
self-removal, optional initial commit, optional GitHub provisioning and
configuration, summary. -/
def runScript (inp : RunInput) (fs0 : FS) : RunOutput :=
  if continueCancelled inp.pkgNameField inp.continueAnswer then
    ⟨0, fs0, [], false, false⟩
  else
    let packageName := questionResult inp.packageNameAnswer myLib
    let repoName := questionResult inp.repoAnswer (defaultRepoName packageName)
    let defaultGhUser := if inp.gitConfigOk then jsTrim inp.gitUserOut else []
    let githubUser := questionResult inp.githubUserAnswer defaultGhUser
    let description := questionResult inp.descriptionAnswer ("A TypeScript library".toList)
    let author := questionResult inp.authorAnswer defaultGhUser
    if proceedCancelled inp.confirmAnswer then
      ⟨0, fs0, [], false, false⟩
    else
      let table := theReplacements packageName repoName githubUser description author
      let fs1 := replaceInFileFS fs0 pkgJsonPath table
      let fs2 := replaceInFileFS fs1 changesetPath table
      if inp.installExit ≠ 0 then
        ⟨1, fs2, [Step.substitution, Step.install], false, false⟩
      else
        let fs3 := selfRemoveFS fs2 inp.stripSetup
        let commitTag : List Step :=
          if promptYes inp.commitAnswer then [Step.commit] else []
        let ghOutcome : Bool × Bool × List Step :=
          if inp.ghAuthExit = 0 then
            if promptYes inp.setupGithubAnswer then
              if inp.repoViewExit ≠ 0 then
                if inp.repoCreateExit ≠ 0 then
                  (false, false, [Step.github])
                else
                  match (configureGitHub inp.ghConfig).result with
                  | some r => (r.success, r.npmTokenConfigured, [Step.github])
                  | none => (false, false, [Step.github])
              else
                if inp.pushExit = 0 then
                  match (configureGitHub inp.ghConfig).result with
                  | some r => (r.success, r.npmTokenConfigured, [Step.github])
                  | none => (false, false, [Step.github])
                else
                  (false, false, [Step.github])
            else
              (false, false, [])
          else
            (false, false, [])
        ⟨0, fs3,
          [Step.substitution, Step.install, Step.gitSetup, Step.selfRemove] ++
            commitTag ++ ghOutcome.2.2 ++ [Step.summary],
          ghOutcome.1, ghOutcome.2.1⟩

/-- Two patterns cannot overlap in any subject: no nonempty suffix of one
is prefix-compatible with the other.  (Prefix-compatibility of `a` and `b`
means `a <+: b ∨ b <+: a`, exactly what lets two occurrences share text.) -/
def NonOverlap (p q : List Char) : Prop :=
  (∀ r ∈ p.tails, r ≠ [] → ¬ r <+: q ∧ ¬ q <+: r) ∧
  (∀ r ∈ q.tails, r ≠ [] → ¬ p <+: r ∧ ¬ r <+: p)

/-- Values that cannot interfere with the substitution pass: each value
is nonempty, contains no dollar character (so `GetSubstitution` inserts
it verbatim), and uses only characters that occur in no placeholder
token, not in the original content, and in no other value of the table. -/
def ValuesOk (content v1 v2 v3 v4 v5 : List Char) : Prop :=
  (∀ v ∈ [v1, v2, v3, v4, v5],
    v ≠ [] ∧ '$' ∉ v ∧ ∀ c ∈ v, c ∉ content ∧ ∀ t ∈ toks, c ∉ t) ∧
  List.Pairwise (fun a b => ∀ c ∈ a, c ∉ b) [v1, v2, v3, v4, v5]

instance valuesOkDec (content v1 v2 v3 v4 v5 : List Char) :
    Decidable (ValuesOk content v1 v2 v3 v4 v5) :=
  inferInstanceAs (Decidable
    ((∀ v ∈ [v1, v2, v3, v4, v5],
      v ≠ [] ∧ '$' ∉ v ∧ ∀ c ∈ v, c ∉ content ∧ ∀ t ∈ toks, c ∉ t) ∧
      List.Pairwise (fun a b => ∀ c ∈ a, c ∉ b) [v1, v2, v3, v4, v5]))

instance nonOverlapDec (p q : List Char) : Decidable (NonOverlap p q) :=
  inferInstanceAs
    (Decidable ((∀ r ∈ p.tails, r ≠ [] → ¬ r <+: q ∧ ¬ q <+: r) ∧
      (∀ r ∈ q.tails, r ≠ [] → ¬ p <+: r ∧ ¬ r <+: p)))

/-- The token at position `i` of the replacement table. -/
def tokAt : Fin 5 → List Char
  | 0 => tokPackage
  | 1 => tokRepo
  | 2 => tokUser
  | 3 => tokDesc
  | 4 => tokAuthor

/-- The replacement value at position `i` of the replacement table. -/
def valAt (v1 v2 v3 v4 v5 : List Char) : Fin 5 → List Char
  | 0 => v1
  | 1 => v2
  | 2 => v3
  | 3 => v4
  | 4 => v5

theorem scanF_nil (p v : List Char) (n : Nat) : scanF p v n [] = [] := by
  cases n <;> rfl

theorem countF_nil (p : List Char) (n : Nat) : countF p n [] = 0 := by
  cases n <;> rfl

theorem scanF_fuel (p v : List Char) :
    ∀ n m s, s.length ≤ n → s.length ≤ m → scanF p v n s = scanF p v m s := by
  intro n
  induction n with
  | zero =>
    intro m s hn _
    have hs : s = [] := List.length_eq_zero.mp (Nat.le_zero.mp hn)
    subst hs
    rw [scanF_nil, scanF_nil]
  | succ n ih =>
    intro m s hn hm
    cases s with
    | nil => rw [scanF_nil, scanF_nil]
    | cons c t =>
      cases m with
      | zero => exact absurd hm (by simp)
      | succ m =>
        show (if p ≠ [] ∧ p <+: (c :: t) then
                v ++ scanF p v n ((c :: t).drop p.length)
              else c :: scanF p v n t) =
             (if p ≠ [] ∧ p <+: (c :: t) then
                v ++ scanF p v m ((c :: t).drop p.length)
              else c :: scanF p v m t)
        by_cases h : p ≠ [] ∧ p <+: (c :: t)
        · rw [if_pos h, if_pos h]
          have hp : 1 ≤ p.length := List.length_pos.mpr h.1
          have hd : ((c :: t).drop p.length).length ≤ n := by
            simp only [List.length_drop, List.length_cons]
            simp only [List.length_cons] at hn
            omega
          have hd' : ((c :: t).drop p.length).length ≤ m := by
            simp only [List.length_drop, List.length_cons]
            simp only [List.length_cons] at hm
            omega
          rw [ih _ _ hd hd']
        · rw [if_neg h, if_neg h]
          have h1 : t.length ≤ n := by
            simp only [List.length_cons] at hn; omega
          have h2 : t.length ≤ m := by
            simp only [List.length_cons] at hm; omega
          rw [ih _ _ h1 h2]

theorem countF_fuel (p : List Char) :
    ∀ n m s, s.length ≤ n → s.length ≤ m → countF p n s = countF p m s := by
  intro n
  induction n with
  | zero =>
    intro m s hn _
    have hs : s = [] := List.length_eq_zero.mp (Nat.le_zero.mp hn)
    subst hs
    rw [countF_nil, countF_nil]
  | succ n ih =>
    intro m s hn hm
    cases s with
    | nil => rw [countF_nil, countF_nil]
    | cons c t =>
      cases m with
      | zero => exact absurd hm (by simp)
      | succ m =>
        show (if p ≠ [] ∧ p <+: (c :: t) then
                countF p n ((c :: t).drop p.length) + 1
              else countF p n t) =
             (if p ≠ [] ∧ p <+: (c :: t) then
                countF p m ((c :: t).drop p.length) + 1
              else countF p m t)
        by_cases h : p ≠ [] ∧ p <+: (c :: t)
        · rw [if_pos h, if_pos h]
          have hp : 1 ≤ p.length := List.length_pos.mpr h.1
          have hd : ((c :: t).drop p.length).length ≤ n := by
            simp only [List.length_drop, List.length_cons]
            simp only [List.length_cons] at hn
            omega
          have hd' : ((c :: t).drop p.length).length ≤ m := by
            simp only [List.length_drop, List.length_cons]
            simp only [List.length_cons] at hm
            omega
          rw [ih _ _ hd hd']
        · rw [if_neg h, if_neg h]
          have h1 : t.length ≤ n := by
            simp only [List.length_cons] at hn; omega
          have h2 : t.length ≤ m := by
            simp only [List.length_cons] at hm; omega
          rw [ih _ _ h1 h2]

theorem scanReplace_nil (p v : List Char) : scanReplace p v [] = [] := rfl

theorem scanReplace_cons_pos {p : List Char} (v : List Char) {c : Char} {s : List Char}
    (h : p ≠ [] ∧ p <+: (c :: s)) :
    scanReplace p v (c :: s) = v ++ scanReplace p v ((c :: s).drop p.length) := by
  show (if p ≠ [] ∧ p <+: (c :: s) then
          v ++ scanF p v s.length ((c :: s).drop p.length)
        else c :: scanF p v s.length s) = _
  rw [if_pos h]
  unfold scanReplace
  congr 1
  have hp : 1 ≤ p.length := List.length_pos.mpr h.1
  exact scanF_fuel p v s.length ((c :: s).drop p.length).length _
    (by simp only [List.length_drop, List.length_cons]; omega) (le_refl _)

theorem scanReplace_cons_neg {p : List Char} (v : List Char) {c : Char} {s : List Char}
    (h : ¬(p ≠ [] ∧ p <+: (c :: s))) :
    scanReplace p v (c :: s) = c :: scanReplace p v s := by
  show (if p ≠ [] ∧ p <+: (c :: s) then
          v ++ scanF p v s.length ((c :: s).drop p.length)
        else c :: scanF p v s.length s) = _
  rw [if_neg h]
  rfl

theorem countOccs_nil (p : List Char) : countOccs p [] = 0 := rfl

theorem countOccs_cons_pos {p : List Char} {c : Char} {s : List Char}
    (h : p ≠ [] ∧ p <+: (c :: s)) :
    countOccs p (c :: s) = countOccs p ((c :: s).drop p.length) + 1 := by
  show (if p ≠ [] ∧ p <+: (c :: s) then
          countF p s.length ((c :: s).drop p.length) + 1
        else countF p s.length s) = _
  rw [if_pos h]
  unfold countOccs
  congr 1
  have hp : 1 ≤ p.length := List.length_pos.mpr h.1
  exact countF_fuel p s.length ((c :: s).drop p.length).length _
    (by simp only [List.length_drop, List.length_cons]; omega) (le_refl _)

theorem countOccs_cons_neg {p : List Char} {c : Char} {s : List Char}
    (h : ¬(p ≠ [] ∧ p <+: (c :: s))) :
    countOccs p (c :: s) = countOccs p s := by
  show (if p ≠ [] ∧ p <+: (c :: s) then
          countF p s.length ((c :: s).drop p.length) + 1
        else countF p s.length s) = _
  rw [if_neg h]
  rfl

theorem scanRec (p : List Char) (motive : List Char → Prop)
    (h0 : motive [])
    (h1 : ∀ c s, (p ≠ [] ∧ p <+: (c :: s)) → motive ((c :: s).drop p.length) → motive (c :: s))
    (h2 : ∀ c s, ¬(p ≠ [] ∧ p <+: (c :: s)) → motive s → motive (c :: s)) :
    ∀ s, motive s := by
  have key : ∀ n s, s.length ≤ n → motive s := by
    intro n
    induction n with
    | zero =>
      intro s hs
      have : s = [] := List.length_eq_zero.mp (Nat.le_zero.mp hs)
      exact this ▸ h0
    | succ n ih =>
      intro s hs
      cases s with
      | nil => exact h0
      | cons c t =>
        by_cases h : p ≠ [] ∧ p <+: (c :: t)
        · refine h1 c t h (ih _ ?_)
          have hp : 1 ≤ p.length := List.length_pos.mpr h.1
          simp only [List.length_drop, List.length_cons]
          simp only [List.length_cons] at hs
          omega
        · refine h2 c t h (ih t ?_)
          simp only [List.length_cons] at hs
          omega
  exact fun s => key s.length s (le_refl _)

theorem jsSplit_cons (sep c : Char) (t : List Char) :
    jsSplit sep (c :: t) =
      match jsSplit sep t with
      | [] => [[c]]
      | a :: rest => if c = sep then [] :: a :: rest else (c :: a) :: rest := rfl

theorem jsSplit_ne_nil (sep : Char) (s : List Char) : jsSplit sep s ≠ [] := by
  induction s with
  | nil => simp [jsSplit]
  | cons c t ih =>
    rw [jsSplit_cons]
    cases h : jsSplit sep t with
    | nil => simp
    | cons a rest =>
      by_cases hc : c = sep <;> simp [hc]

theorem jsSplit_no_sep (sep : Char) (s : List Char) (h : sep ∉ s) :
    jsSplit sep s = [s] := by
  induction s with
  | nil => rfl
  | cons c t ih =>
    have hc : c ≠ sep := by
      intro he; exact h (he ▸ List.mem_cons_self c t)
    have ht : sep ∉ t := fun hm => h (List.mem_cons_of_mem c hm)
    rw [jsSplit_cons, ih ht]
    simp [hc]

theorem jsSplit_append (sep : Char) (a b : List Char) (h : sep ∉ a) :
    jsSplit sep (a ++ sep :: b) = a :: jsSplit sep b := by
  induction a with
  | nil =>
    rw [List.nil_append, jsSplit_cons]
    cases hb : jsSplit sep b with
    | nil => exact absurd hb (jsSplit_ne_nil sep b)
    | cons x rest => simp
  | cons c a' ih =>
    have hc : c ≠ sep := by
      intro he; exact h (he ▸ List.mem_cons_self c a')
    have ha : sep ∉ a' := fun hm => h (List.mem_cons_of_mem c hm)
    rw [List.cons_append, jsSplit_cons, ih ha]
    simp [hc]

/-- C4 (amended): for a package name of the form `a ++ '/' :: b` whose
scope part `a` starts with `'@'` and where neither part contains a further
`'/'`, the derived default repository name is the (nonempty) portion `b`
after the separator; for an `'@'`-name with no `'/'`, or with an empty
second `'/'`-separated segment, the derivation falls back to `'my-lib'`;
for a name not starting with `'@'` the derivation returns the name itself.
In particular `'my-lib'` derives `'my-lib'` and `'@acme/my-lib'` derives
`'my-lib'`. -/
theorem defaultRepoName_spec :
    (∀ a b : List Char, a.take 1 = ['@'] → '/' ∉ a → '/' ∉ b → b ≠ [] →
      defaultRepoName (a ++ '/' :: b) = b) ∧
    (∀ a : List Char, a.take 1 = ['@'] → '/' ∉ a → defaultRepoName a = myLib) ∧
    (∀ a : List Char, a.take 1 = ['@'] → '/' ∉ a →
      defaultRepoName (a ++ ['/']) = myLib) ∧
    (∀ s : List Char, s.take 1 ≠ ['@'] → defaultRepoName s = s) ∧
    defaultRepoName myLib = myLib ∧
    defaultRepoName ("@acme/my-lib".toList) = myLib := by
  have htake : ∀ (a : List Char) (x : List Char), a.take 1 = ['@'] →
      (a ++ x).take 1 = ['@'] := by
    intro a x ha
    cases a with
    | nil => simp at ha
    | cons c t =>
      simp only [List.take_succ_cons, List.take_zero] at ha
      have hc : c = '@' := by
        have := List.head_eq_of_cons_eq ha
        exact this
      simp [List.cons_append, hc]
  refine ⟨?_, ?_, ?_, ?_, by decide, by decide⟩
  · intro a b ha hs hb hbne
    have h1 : (a ++ '/' :: b).take 1 = ['@'] := htake a _ ha
    unfold defaultRepoName
    rw [if_pos h1, jsSplit_append '/' a b hs, jsSplit_no_sep '/' b hb]
    simp [hbne]
  · intro a ha hs
    unfold defaultRepoName
    rw [if_pos ha, jsSplit_no_sep '/' a hs]
    simp
  · intro a ha hs
    have h1 : (a ++ ['/']).take 1 = ['@'] := htake a _ ha
    unfold defaultRepoName
    rw [if_pos h1]
    have : ('/' : Char) :: ([] : List Char) = '/' :: [] := rfl
    rw [show (a ++ ['/'] : List Char) = a ++ '/' :: [] from rfl,
        jsSplit_append '/' a [] hs]
    simp [jsSplit]
  · intro s hne
    unfold defaultRepoName
    rw [if_neg hne]

/-- C4 counterexample: for the package name `'@acme/'` (which begins with
`'@'`), the portion after the `'/'` separator is empty, yet the derived
default repository name is `'my-lib'`, not that (empty) portion. -/
theorem defaultRepoName_cex :
    defaultRepoName ("@acme".toList ++ '/' :: []) = myLib ∧
    defaultRepoName ("@acme".toList ++ '/' :: []) ≠ [] := by decide

/-- C4 witness: the amended theorem applied at `'@acme/my-lib'`. -/
theorem defaultRepoName_spec_witness :
    defaultRepoName ("@acme".toList ++ '/' :: "my-lib".toList) = "my-lib".toList :=
  defaultRepoName_spec.1 "@acme".toList "my-lib".toList (by decide) (by decide)
    (by decide) (by decide)

/-- C8: when the target file does not exist, `replaceInFile` is a no-op:
it raises no error (the model is total), creates no file, and leaves the
filesystem unchanged. -/
theorem replaceInFileFS_missing (fs : FS) (path : List Char)
    (table : List (List Char × List Char)) (h : lookupFS fs path = none) :
    replaceInFileFS fs path table = fs := by
  simp [replaceInFileFS, h]

/-- C8 witness: skipping the absent changeset config on a one-file
filesystem. -/
theorem replaceInFileFS_missing_witness :
    replaceInFileFS [(pkgJsonPath, "x".toList)] changesetPath [] =
      [(pkgJsonPath, "x".toList)] :=
  replaceInFileFS_missing [(pkgJsonPath, "x".toList)] changesetPath [] (by decide)

/-- C10: at the `Proceed with setup? (Y/n)` prompt, setup is cancelled
exactly when the trimmed answer lowercases to `'n'`; any other answer
(including `'no'`, and the empty answer, which falls back to the default
`'y'`) proceeds with setup. -/
theorem proceedCancelled_iff (ans : List Char) :
    proceedCancelled ans = true ↔ jsToLower (jsTrim ans) = nStr := by
  simp only [proceedCancelled, questionResult, decide_eq_true_eq]
  constructor
  · intro hl
    by_cases h : jsTrim ans = []
    · rw [if_pos h] at hl
      exact absurd hl (by decide)
    · rw [if_neg h] at hl
      exact hl
  · intro hr
    by_cases h : jsTrim ans = []
    · rw [h] at hr
      exact absurd hr (by decide)
    · rw [if_neg h]
      exact hr

/-- C3: whenever the branch-protection command fails and the captured
error text contains the `'not found'` substring, `configureGitHub` returns
failure (`false`) and the secret-registration step is never invoked.  (In
fact the code aborts on every protection failure; the `'Not Found'` match
only selects the remediation message.) -/
theorem configureGitHub_notFound_aborts (i : ConfigureIn)
    (h : i.protectionExit ≠ 0) (_hs : "not found".toList <:+: i.protectionStderr) :
    (configureGitHub i).result = none ∧
    (configureGitHub i).secretAttempted = false := by
  unfold configureGitHub
  rw [if_pos h]
  by_cases hb : jsIncludes notFoundMarker i.protectionStderr = true
  · rw [if_pos hb]
    exact ⟨rfl, rfl⟩
  · rw [if_neg hb]
    exact ⟨rfl, rfl⟩

/-- C3 witness: a protection failure whose stderr is literally
`'not found'`. -/
theorem configureGitHub_notFound_aborts_witness :
    (configureGitHub ⟨0, 1, "not found".toList, some ("t".toList), 0⟩).result = none ∧
    (configureGitHub ⟨0, 1, "not found".toList, some ("t".toList), 0⟩).secretAttempted
      = false :=
  configureGitHub_notFound_aborts ⟨0, 1, "not found".toList, some ("t".toList), 0⟩
    (by decide) (by decide)

/-- C2 counterexample: an execution in which the branch-protection step
fails (exit 1, stderr `'boom'`, so not a `'Not Found'` error) while an
`NPM_TOKEN` value is available: the later secret-registration step is not
attempted, so a failing step does abort subsequent steps. -/
theorem configureGitHub_cex :
    ((⟨0, 1, "boom".toList, some ("tok".toList), 0⟩ : ConfigureIn).protectionExit ≠ 0) ∧
    ((⟨0, 1, "boom".toList, some ("tok".toList), 0⟩ : ConfigureIn).npmToken.isSome = true) ∧
    (configureGitHub ⟨0, 1, "boom".toList, some ("tok".toList), 0⟩).secretAttempted
      = false := by decide

/-- C2 (amended): the merge-settings step is independently fallible — it
is attempted first and the branch-protection step is attempted regardless
of its outcome — but a branch-protection failure aborts the configurator:
`configureGitHub` returns failure and secret registration is never
attempted. -/
theorem configureGitHub_protection_aborts (i : ConfigureIn)
    (h : i.protectionExit ≠ 0) :
    (configureGitHub i).settingsAttempted = true ∧
    (configureGitHub i).protectionAttempted = true ∧
    (configureGitHub i).result = none ∧
    (configureGitHub i).secretAttempted = false := by
  unfold configureGitHub
  rw [if_pos h]
  by_cases hb : jsIncludes notFoundMarker i.protectionStderr = true
  · rw [if_pos hb]
    exact ⟨rfl, rfl, rfl, rfl⟩
  · rw [if_neg hb]
    exact ⟨rfl, rfl, rfl, rfl⟩

/-- C2 witness: the amended theorem applied to a failing-protection input
whose merge-settings step also failed. -/
theorem configureGitHub_protection_aborts_witness :
    (configureGitHub ⟨1, 1, "x".toList, some ("tok".toList), 0⟩).settingsAttempted = true ∧
    (configureGitHub ⟨1, 1, "x".toList, some ("tok".toList), 0⟩).protectionAttempted = true ∧
    (configureGitHub ⟨1, 1, "x".toList, some ("tok".toList), 0⟩).result = none ∧
    (configureGitHub ⟨1, 1, "x".toList, some ("tok".toList), 0⟩).secretAttempted = false :=
  configureGitHub_protection_aborts ⟨1, 1, "x".toList, some ("tok".toList), 0⟩ (by decide)

/-- C7 counterexample: when the secret value happens to equal one of the
fixed words of the command (here `'gh'`), the value is an element of the
constructed argument list, so the claim's universal "never an element"
fails (though only by literal coincidence). -/
theorem setRepoSecretCmd_cex :
    "gh".toList ∈
      (setRepoSecretCmd ("o/r".toList) ("NPM_TOKEN".toList) ("gh".toList)).argv := by
  decide

/-- C7 (amended): the argument list built by `setRepoSecret` is a function
of the repository and secret name only — it is identical for any two secret
values — and the secret value is delivered exclusively through the child's
standard-input payload; hence the value can occur among the arguments only
by coinciding with one of them. -/
theorem setRepoSecretCmd_stdin_only (repo nm v1 v2 : List Char) :
    (setRepoSecretCmd repo nm v1).argv = (setRepoSecretCmd repo nm v2).argv ∧
    (setRepoSecretCmd repo nm v1).stdinData = some v1 :=
  ⟨rfl, rfl⟩

/-- C5: a negative answer at either confirmation prompt (`Continue
anyway?` when shown, or `Proceed with setup?`) makes the process exit with
status 0, with no workflow step performed and the filesystem exactly as it
was — both prompts precede every file mutation. -/
theorem runScript_cancel (inp : RunInput) (fs0 : FS)
    (h : continueCancelled inp.pkgNameField inp.continueAnswer = true ∨
         proceedCancelled inp.confirmAnswer = true) :
    (runScript inp fs0).exitCode = 0 ∧ (runScript inp fs0).fs = fs0 ∧
    (runScript inp fs0).trace = [] := by
  rcases h with h | h
  · simp [runScript, h]
  · by_cases hc : continueCancelled inp.pkgNameField inp.continueAnswer = true
    · simp [runScript, hc]
    · simp [runScript, hc, h]

/-- Input of a run cancelled at the `Proceed with setup?` prompt. -/
def cancelRun : RunInput :=
  ⟨"x".toList, [], [], [], false, [], [], [], [], "n".toList, 0, false,
    fun s => s, [], 1, [], 1, 1, 1, 1, ⟨0, 0, [], none, 0⟩⟩

/-- C5 witness: answering `'n'` at the `Proceed with setup?` prompt exits
with status 0 and leaves the (empty) filesystem untouched. -/
theorem runScript_cancel_witness :
    (runScript cancelRun []).exitCode = 0 ∧ (runScript cancelRun []).fs = [] ∧
    (runScript cancelRun []).trace = [] :=
  runScript_cancel cancelRun [] (Or.inr (by decide))

/-- C6: when `bun install` exits nonzero, the script halts immediately —
the recorded workflow steps end at the installation step, so no git setup,
self-removal, commit, GitHub configuration or summary happens — and the
process exits with status 1. -/
theorem runScript_install_fail (inp : RunInput) (fs0 : FS)
    (h1 : continueCancelled inp.pkgNameField inp.continueAnswer = false)
    (h2 : proceedCancelled inp.confirmAnswer = false)
    (h3 : inp.installExit ≠ 0) :
    (runScript inp fs0).exitCode = 1 ∧
    (runScript inp fs0).trace = [Step.substitution, Step.install] := by
  simp [runScript, h1, h2, h3]

/-- Input of a run that reaches `bun install` and has it fail. -/
def installFailRun : RunInput :=
  ⟨openBraces, [], [], [], false, [], [], [], [], [], 1, false,
    fun s => s, [], 1, [], 1, 1, 1, 1, ⟨0, 0, [], none, 0⟩⟩

/-- C6 witness: a run whose `bun install` exits 1 halts at the install
step with exit status 1. -/
theorem runScript_install_fail_witness :
    (runScript installFailRun []).exitCode = 1 ∧
    (runScript installFailRun []).trace = [Step.substitution, Step.install] :=
  runScript_install_fail installFailRun [] (by decide) (by decide) (by decide)

theorem headMemOfPrefixCons {q : List Char} {c : Char} {t : List Char}
    (hq : q ≠ []) (h : q <+: c :: t) : c ∈ q := by
  cases q with
  | nil => exact absurd rfl hq
  | cons q0 q' =>
    obtain ⟨w, hw⟩ := h
    rw [List.cons_append] at hw
    injection hw with h1 _
    subst h1
    exact List.mem_cons_self _ _

theorem infixConsCases {q : List Char} {c : Char} {t : List Char}
    (h : q <:+: c :: t) : q <+: c :: t ∨ q <:+: t := by
  obtain ⟨s1, s2, h12⟩ := h
  cases s1 with
  | nil =>
    left
    exact ⟨s2, by simpa using h12⟩
  | cons d s1' =>
    right
    rw [List.cons_append, List.cons_append] at h12
    injection h12 with _ h2
    exact ⟨s1', s2, h2⟩

theorem infixAppendRight {q a b : List Char} (h : q <:+: b) : q <:+: a ++ b := by
  obtain ⟨s1, s2, h12⟩ := h
  exact ⟨a ++ s1, s2, by rw [List.append_assoc a s1 q, List.append_assoc, h12]⟩

theorem prefixAppendCases {q a t : List Char} (h : q <+: a ++ t) :
    q <+: a ∨ a <+: q := by
  by_cases hl : q.length ≤ a.length
  · exact Or.inl (List.prefix_of_prefix_length_le h (List.prefix_append a t) hl)
  · exact Or.inr (List.prefix_of_prefix_length_le (List.prefix_append a t) h (by omega))

theorem infixAppendCases :
    ∀ {a q b : List Char}, q <:+: a ++ b →
      q <:+: a ∨ q <:+: b ∨
        ∃ q1 q2, q = q1 ++ q2 ∧ q1 ≠ [] ∧ q2 ≠ [] ∧ q1 <:+ a ∧ q2 <+: b := by
  intro a
  induction a with
  | nil =>
    intro q b h
    exact Or.inr (Or.inl (by simpa using h))
  | cons c a' ih =>
    intro q b h
    rw [List.cons_append] at h
    rcases infixConsCases h with hpre | hinf
    · have hpre' : q <+: (c :: a') ++ b := by rw [List.cons_append]; exact hpre
      rcases prefixAppendCases hpre' with h1 | h1
      · left
        obtain ⟨w, hw⟩ := h1
        exact ⟨[], w, by simpa using hw⟩
      · obtain ⟨q2, hq2⟩ := h1
        by_cases hq2e : q2 = []
        · left
          subst hq2e
          rw [List.append_nil] at hq2
          exact ⟨[], [], by simp [hq2]⟩
        · right; right
          refine ⟨c :: a', q2, hq2.symm, by simp, hq2e, List.suffix_refl _, ?_⟩
          obtain ⟨w, hw⟩ := hpre
          rw [← hq2] at hw
          have h' : (c :: a') ++ (q2 ++ w) = (c :: a') ++ b := by
            rw [← List.append_assoc, hw, List.cons_append]
          exact ⟨w, List.append_cancel_left h'⟩
    · rcases ih hinf with h1 | h1 | ⟨q1, q2, he, hn1, hn2, hs, hp⟩
      · left; exact List.infix_cons h1
      · right; left; exact h1
      · right; right
        exact ⟨q1, q2, he, hn1, hn2, hs.trans (List.suffix_cons c a'), hp⟩

theorem memScanReplace (p v : List Char) :
    ∀ s x, x ∈ scanReplace p v s → x ∈ s ∨ x ∈ v := by
  refine scanRec p (fun s => ∀ x, x ∈ scanReplace p v s → x ∈ s ∨ x ∈ v) ?_ ?_ ?_
  · intro x hx
    rw [scanReplace_nil] at hx
    exact absurd hx (List.not_mem_nil x)
  · intro c s h ih x hx
    rw [scanReplace_cons_pos v h] at hx
    rcases List.mem_append.mp hx with hv | hr
    · exact Or.inr hv
    · rcases ih x hr with hs | hv
      · exact Or.inl (List.mem_of_mem_drop hs)
      · exact Or.inr hv
  · intro c s h ih x hx
    rw [scanReplace_cons_neg v h] at hx
    rcases List.mem_cons.mp hx with rfl | hr
    · exact Or.inl (List.mem_cons_self x s)
    · rcases ih x hr with hs | hv
      · exact Or.inl (List.mem_cons_of_mem c hs)
      · exact Or.inr hv

theorem countPeel {q : List Char} (a t : List Char) (h : ∀ c ∈ a, c ∉ q) :
    countOccs q (a ++ t) = countOccs q t := by
  induction a with
  | nil => rfl
  | cons c a' ih =>
    rw [List.cons_append]
    have hg : ¬(q ≠ [] ∧ q <+: c :: (a' ++ t)) := by
      rintro ⟨hq, hpre⟩
      exact h c (List.mem_cons_self c a') (headMemOfPrefixCons hq hpre)
    rw [countOccs_cons_neg hg]
    exact ih (fun x hx => h x (List.mem_cons_of_mem c hx))

theorem countHead {v : List Char} (hv : v ≠ []) (t : List Char) :
    countOccs v (v ++ t) = countOccs v t + 1 := by
  cases v with
  | nil => exact absurd rfl hv
  | cons v0 v' =>
    rw [List.cons_append]
    have hg : (v0 :: v') ≠ [] ∧ (v0 :: v') <+: v0 :: (v' ++ t) :=
      ⟨by simp, ⟨t, by rw [List.cons_append]⟩⟩
    rw [countOccs_cons_pos hg]
    congr 1
    have he : v0 :: (v' ++ t) = (v0 :: v') ++ t := by rw [List.cons_append]
    rw [he, List.drop_left]

theorem countZeroOfFresh {v : List Char} (hv : v ≠ []) :
    ∀ s, (∀ c ∈ v, c ∉ s) → countOccs v s = 0 := by
  intro s
  induction s with
  | nil => intro _; rfl
  | cons c t ih =>
    intro h
    have hg : ¬(v ≠ [] ∧ v <+: c :: t) := by
      rintro ⟨_, hpre⟩
      exact h c (headMemOfPrefixCons hv hpre) (List.mem_cons_self c t)
    rw [countOccs_cons_neg hg]
    exact ih (fun x hx hxt => h x hx (List.mem_cons_of_mem c hxt))

theorem suffixPeelCount {q : List Char} (p t : List Char)
    (h : ∀ r, r <:+ p → r ≠ [] → ¬ q <+: r ∧ ¬ r <+: q) :
    countOccs q (p ++ t) = countOccs q t := by
  induction p with
  | nil => rfl
  | cons c p' ih =>
    rw [List.cons_append]
    have hg : ¬(q ≠ [] ∧ q <+: c :: (p' ++ t)) := by
      rintro ⟨hq, hpre⟩
      have hpre' : q <+: (c :: p') ++ t := by rw [List.cons_append]; exact hpre
      rcases prefixAppendCases hpre' with h1 | h1
      · exact (h (c :: p') (List.suffix_refl _) (by simp)).1 h1
      · exact (h (c :: p') (List.suffix_refl _) (by simp)).2 h1
    rw [countOccs_cons_neg hg]
    exact ih (fun r hr hrne => h r (hr.trans (List.suffix_cons c p')) hrne)

theorem appendNoMatch {p v : List Char} (q u : List Char)
    (h : ∀ r, r <:+ q → r ≠ [] → ¬ p <+: r ∧ ¬ r <+: p) :
    scanReplace p v (q ++ u) = q ++ scanReplace p v u := by
  induction q with
  | nil => rfl
  | cons c q' ih =>
    rw [List.cons_append]
    have hg : ¬(p ≠ [] ∧ p <+: c :: (q' ++ u)) := by
      rintro ⟨hp, hpre⟩
      have hpre' : p <+: (c :: q') ++ u := by rw [List.cons_append]; exact hpre
      rcases prefixAppendCases hpre' with h1 | h1
      · exact (h (c :: q') (List.suffix_refl _) (by simp)).1 h1
      · exact (h (c :: q') (List.suffix_refl _) (by simp)).2 h1
    rw [scanReplace_cons_neg v hg,
      ih (fun r hr hrne => h r (hr.trans (List.suffix_cons c q')) hrne),
      List.cons_append]

theorem prefixReflect {p v : List Char} (hv : v ≠ []) :
    ∀ (s q : List Char), (∀ c ∈ v, c ∉ q) → q <+: scanReplace p v s → q <+: s := by
  have main : ∀ n s, s.length ≤ n → ∀ q : List Char,
      (∀ c ∈ v, c ∉ q) → q <+: scanReplace p v s → q <+: s := by
    intro n
    induction n with
    | zero =>
      intro s hs q _ h
      have hsn : s = [] := List.length_eq_zero.mp (Nat.le_zero.mp hs)
      subst hsn
      rw [scanReplace_nil] at h
      have hqn : q = [] := List.prefix_nil.mp h
      subst hqn
      exact List.nil_prefix
    | succ n ih =>
      intro s hs q hq h
      cases s with
      | nil =>
        rw [scanReplace_nil] at h
        have hqn : q = [] := List.prefix_nil.mp h
        subst hqn
        exact List.nil_prefix
      | cons c t =>
        by_cases hg : p ≠ [] ∧ p <+: (c :: t)
        · rw [scanReplace_cons_pos v hg] at h
          cases q with
          | nil => exact List.nil_prefix
          | cons q0 q' =>
            exfalso
            cases v with
            | nil => exact hv rfl
            | cons w0 w' =>
              obtain ⟨u, hu⟩ := h
              rw [List.cons_append, List.cons_append] at hu
              injection hu with h1 _
              subst h1
              exact hq q0 (List.mem_cons_self _ _) (List.mem_cons_self _ _)
        · rw [scanReplace_cons_neg v hg] at h
          cases q with
          | nil => exact List.nil_prefix
          | cons q0 q' =>
            obtain ⟨u, hu⟩ := h
            rw [List.cons_append] at hu
            injection hu with h1 h2
            have hq' : q' <+: scanReplace p v t := ⟨u, h2⟩
            have hqt : q' <+: t := by
              refine ih t ?_ q' (fun x hx hxq => hq x hx (List.mem_cons_of_mem q0 hxq)) hq'
              simp only [List.length_cons] at hs
              omega
            obtain ⟨w, hw⟩ := hqt
            exact ⟨w, by rw [List.cons_append, hw, h1]⟩
  intro s q
  exact main s.length s (le_refl _) q

theorem notInfixScanReplace {p v : List Char} (hp : p ≠ []) (hv : v ≠ [])
    (hd : ∀ c ∈ v, c ∉ p) : ∀ s, ¬ p <:+: scanReplace p v s := by
  refine scanRec p (fun s => ¬ p <:+: scanReplace p v s) ?_ ?_ ?_
  · show ¬ p <:+: scanReplace p v []
    rw [scanReplace_nil]
    intro h
    obtain ⟨s1, s2, h12⟩ := h
    have hlen := congrArg List.length h12
    simp only [List.length_append, List.length_nil] at hlen
    exact hp (List.length_eq_zero.mp (by omega))
  · intro c s hg ih h
    rw [scanReplace_cons_pos v hg] at h
    rcases infixAppendCases h with h1 | h1 | ⟨q1, q2, he, hn1, _, hsuf, _⟩
    · cases p with
      | nil => exact hp rfl
      | cons p0 p' =>
        have hmem : p0 ∈ v := h1.sublist.subset (List.mem_cons_self p0 p')
        exact hd p0 hmem (List.mem_cons_self p0 p')
    · exact ih h1
    · cases q1 with
      | nil => exact hn1 rfl
      | cons a1 a' =>
        have h1v : a1 ∈ v := hsuf.sublist.subset (List.mem_cons_self a1 a')
        have h1p : a1 ∈ p := by
          rw [he]
          exact List.mem_append.mpr (Or.inl (List.mem_cons_self a1 a'))
        exact hd a1 h1v h1p
  · intro c s hg ih h
    rw [scanReplace_cons_neg v hg] at h
    rcases infixConsCases h with h1 | h1
    · have heq : c :: scanReplace p v s = scanReplace p v (c :: s) :=
        (scanReplace_cons_neg v hg).symm
      have : p <+: c :: s := prefixReflect hv (c :: s) p hd (heq ▸ h1)
      exact hg ⟨hp, this⟩
    · exact ih h1

theorem countZeroOfNotInfix {p : List Char} :
    ∀ s, ¬ p <:+: s → countOccs p s = 0 := by
  intro s
  induction s with
  | nil => intro _; rfl
  | cons c t ih =>
    intro h
    have hg : ¬(p ≠ [] ∧ p <+: c :: t) := by
      rintro ⟨_, hpre⟩
      obtain ⟨w, hw⟩ := hpre
      exact h ⟨[], w, by simpa using hw⟩
    rw [countOccs_cons_neg hg]
    exact ih (fun hinf => h (List.infix_cons hinf))

theorem countValue {p v : List Char} (hv : v ≠ []) :
    ∀ s, (∀ c ∈ v, c ∉ s) →
      countOccs v (scanReplace p v s) = countOccs p s := by
  refine scanRec p
    (fun s => (∀ c ∈ v, c ∉ s) → countOccs v (scanReplace p v s) = countOccs p s)
    ?_ ?_ ?_
  · intro _
    rw [scanReplace_nil]
    rfl
  · intro c s hg ih h
    rw [scanReplace_cons_pos v hg, countHead hv, countOccs_cons_pos hg]
    congr 1
    exact ih (fun x hx hxd => h x hx (List.mem_of_mem_drop hxd))
  · intro c s hg ih h
    have hgv : ¬(v ≠ [] ∧ v <+: c :: scanReplace p v s) := by
      rintro ⟨_, hpre⟩
      exact h c (headMemOfPrefixCons hv hpre) (List.mem_cons_self c s)
    have hgq : ¬(p ≠ [] ∧ p <+: c :: s) := hg
    rw [scanReplace_cons_neg v hg, countOccs_cons_neg hgv, countOccs_cons_neg hgq]
    exact ih (fun x hx hxs => h x hx (List.mem_cons_of_mem c hxs))

theorem countPreserved {p v q : List Char} (hp : p ≠ []) (hq : q ≠ []) (hv : v ≠ [])
    (hd : ∀ c ∈ v, c ∉ q) (hno : NonOverlap p q) :
    ∀ s, countOccs q (scanReplace p v s) = countOccs q s := by
  have main : ∀ n s, s.length ≤ n →
      countOccs q (scanReplace p v s) = countOccs q s := by
    intro n
    induction n with
    | zero =>
      intro s hs
      have hsn : s = [] := List.length_eq_zero.mp (Nat.le_zero.mp hs)
      subst hsn
      rw [scanReplace_nil]
    | succ n ih =>
      intro s hs
      cases s with
      | nil => rw [scanReplace_nil]
      | cons c t =>
        by_cases hg : p ≠ [] ∧ p <+: (c :: t)
        · obtain ⟨u, hu⟩ := hg.2
          have hdrop : (c :: t).drop p.length = u := by rw [← hu, List.drop_left]
          have hul : u.length ≤ n := by
            have := congrArg List.length hu
            simp only [List.length_append, List.length_cons] at this
            simp only [List.length_cons] at hs
            have hp1 : 1 ≤ p.length := List.length_pos.mpr hp
            omega
          rw [scanReplace_cons_pos v hg, hdrop, countPeel v _ hd, ih u hul, ← hu,
            suffixPeelCount p u
              (fun r hr hrne =>
                ⟨(hno.1 r ((List.mem_tails _ _).mpr hr) hrne).2,
                 (hno.1 r ((List.mem_tails _ _).mpr hr) hrne).1⟩)]
        · by_cases hmq : q <+: c :: t
          · obtain ⟨u, hu⟩ := hmq
            have hA : scanReplace p v (c :: t) = q ++ scanReplace p v u := by
              rw [← hu]
              exact appendNoMatch q u
                (fun r hr hrne => hno.2 r ((List.mem_tails _ _).mpr hr) hrne)
            have hdrop : (c :: t).drop q.length = u := by rw [← hu, List.drop_left]
            have hul : u.length ≤ n := by
              have := congrArg List.length hu
              simp only [List.length_append, List.length_cons] at this
              simp only [List.length_cons] at hs
              have hq1 : 1 ≤ q.length := List.length_pos.mpr hq
              omega
            rw [hA, countHead hq, countOccs_cons_pos ⟨hq, ⟨u, hu⟩⟩, hdrop, ih u hul]
          · have hgq : ¬(q ≠ [] ∧ q <+: c :: t) := fun hcon => hmq hcon.2
            rw [scanReplace_cons_neg v hg]
            have hgq2 : ¬(q ≠ [] ∧ q <+: c :: scanReplace p v t) := by
              rintro ⟨_, hpre⟩
              have heq : c :: scanReplace p v t = scanReplace p v (c :: t) :=
                (scanReplace_cons_neg v hg).symm
              exact hmq (prefixReflect hv (c :: t) q hd (heq ▸ hpre))
            rw [countOccs_cons_neg hgq2, countOccs_cons_neg hgq]
            refine ih t ?_
            simp only [List.length_cons] at hs
            omega
  intro s
  exact main s.length s (le_refl _)

theorem nonOverlapSymm {p q : List Char} (h : NonOverlap p q) : NonOverlap q p :=
  ⟨fun r hr hrne => ⟨(h.2 r hr hrne).2, (h.2 r hr hrne).1⟩,
   fun r hr hrne => ⟨(h.1 r hr hrne).2, (h.1 r hr hrne).1⟩⟩

theorem nonOverlapOfDisjoint {p q : List Char} (hp : p ≠ []) (hq : q ≠ [])
    (hd : ∀ c ∈ q, c ∉ p) : NonOverlap p q := by
  constructor
  · intro r hr hrne
    have hrsub : ∀ c ∈ r, c ∈ p := ((List.mem_tails r p).mp hr).sublist.subset
    constructor
    · intro hpre
      cases r with
      | nil => exact hrne rfl
      | cons r0 r' =>
        have h0q : r0 ∈ q := hpre.sublist.subset (List.mem_cons_self r0 r')
        exact hd r0 h0q (hrsub r0 (List.mem_cons_self r0 r'))
    · intro hpre
      cases q with
      | nil => exact hq rfl
      | cons q0 q' =>
        have h0r : q0 ∈ r := hpre.sublist.subset (List.mem_cons_self q0 q')
        exact hd q0 (List.mem_cons_self q0 q') (hrsub q0 h0r)
  · intro r hr hrne
    have hrsub : ∀ c ∈ r, c ∈ q := ((List.mem_tails r q).mp hr).sublist.subset
    constructor
    · intro hpre
      cases p with
      | nil => exact hp rfl
      | cons p0 p' =>
        have h0r : p0 ∈ r := hpre.sublist.subset (List.mem_cons_self p0 p')
        exact hd p0 (hrsub p0 h0r) (List.mem_cons_self p0 p')
    · intro hpre
      cases r with
      | nil => exact hrne rfl
      | cons r0 r' =>
        have h0p : r0 ∈ p := hpre.sublist.subset (List.mem_cons_self r0 r')
        exact hd r0 (hrsub r0 (List.mem_cons_self r0 r')) h0p

theorem foldCountPreserved {q : List Char} (hq : q ≠ []) :
    ∀ (T : List (List Char × List Char)) (s : List Char),
      (∀ e ∈ T, e.1 ≠ [] ∧ e.2 ≠ [] ∧ NonOverlap e.1 q ∧ ∀ c ∈ e.2, c ∉ q) →
      countOccs q (scanApply T s) = countOccs q s := by
  intro T
  induction T with
  | nil => intro s _; rfl
  | cons a T' ih =>
    intro s h
    obtain ⟨h1, h2, h3, h4⟩ := h a (List.mem_cons_self a T')
    have happ : scanApply (a :: T') s =
        scanApply T' (scanReplace a.1 a.2 s) := rfl
    rw [happ, ih _ (fun e he => h e (List.mem_cons_of_mem a he)),
      countPreserved h1 hq h2 h4 h3 s]

theorem tableCounts :
    ∀ (T : List (List Char × List Char)) (s0 : List Char),
      (∀ e ∈ T, e.1 ≠ [] ∧ e.2 ≠ []) →
      List.Pairwise (fun a b => NonOverlap a.1 b.1) T →
      (∀ e ∈ T, ∀ c ∈ e.2, c ∉ s0 ∧ ∀ f ∈ T, c ∉ f.1) →
      List.Pairwise (fun a b => ∀ c ∈ a.2, c ∉ b.2) T →
      ∀ e ∈ T,
        countOccs e.1 (scanApply T s0) = 0 ∧
        countOccs e.2 (scanApply T s0) =
          countOccs e.2 s0 + countOccs e.1 s0 := by
  intro T
  induction T with
  | nil =>
    intro s0 _ _ _ _ e he
    exact absurd he (List.not_mem_nil e)
  | cons a T' ih =>
    intro s0 h1 h2 h3 h4 e he
    obtain ⟨ha1, ha2⟩ := h1 a (List.mem_cons_self a T')
    obtain ⟨h2h, h2t⟩ := List.pairwise_cons.mp h2
    obtain ⟨h4h, h4t⟩ := List.pairwise_cons.mp h4
    have hfreshA := h3 a (List.mem_cons_self a T')
    have hfreshAP : ∀ c ∈ a.2, c ∉ a.1 := fun c hc =>
      (hfreshA c hc).2 a (List.mem_cons_self a T')
    have happ : scanApply (a :: T') s0 =
        scanApply T' (scanReplace a.1 a.2 s0) := rfl
    have h1t : ∀ e' ∈ T', e'.1 ≠ [] ∧ e'.2 ≠ [] :=
      fun e' he' => h1 e' (List.mem_cons_of_mem a he')
    rcases List.mem_cons.mp he with rfl | heT
    · constructor
      · have hcond : ∀ e' ∈ T',
            e'.1 ≠ [] ∧ e'.2 ≠ [] ∧ NonOverlap e'.1 e.1 ∧ ∀ c ∈ e'.2, c ∉ e.1 := by
          intro e' he'
          obtain ⟨he1, he2⟩ := h1t e' he'
          refine ⟨he1, he2, nonOverlapSymm (h2h e' he'), ?_⟩
          intro c hc
          exact ((h3 e' (List.mem_cons_of_mem e he')) c hc).2 e
            (List.mem_cons_self e T')
        rw [happ, foldCountPreserved ha1 T' _ hcond]
        exact countZeroOfNotInfix _ (notInfixScanReplace ha1 ha2 hfreshAP s0)
      · have hcond : ∀ e' ∈ T',
            e'.1 ≠ [] ∧ e'.2 ≠ [] ∧ NonOverlap e'.1 e.2 ∧ ∀ c ∈ e'.2, c ∉ e.2 := by
          intro e' he'
          obtain ⟨he1, he2⟩ := h1t e' he'
          refine ⟨he1, he2, ?_, ?_⟩
          · exact nonOverlapOfDisjoint he1 ha2
              (fun c hc => (hfreshA c hc).2 e' (List.mem_cons_of_mem e he'))
          · exact fun c hc hca => (h4h e' he') c hca hc
        rw [happ, foldCountPreserved ha2 T' _ hcond,
          countValue ha2 s0 (fun c hc => (hfreshA c hc).1),
          countZeroOfFresh ha2 s0 (fun c hc => (hfreshA c hc).1)]
        omega
    · have h3' : ∀ e' ∈ T', ∀ c ∈ e'.2, c ∉ scanReplace a.1 a.2 s0 ∧
          ∀ f ∈ T', c ∉ f.1 := by
        intro e' he' c hc
        constructor
        · intro hc1
          rcases memScanReplace a.1 a.2 s0 c hc1 with hs0 | ha2m
          · exact ((h3 e' (List.mem_cons_of_mem a he')) c hc).1 hs0
          · exact (h4h e' he') c ha2m hc
        · intro f hf
          exact ((h3 e' (List.mem_cons_of_mem a he')) c hc).2 f
            (List.mem_cons_of_mem a hf)
      have hres := ih (scanReplace a.1 a.2 s0) h1t h2t h3' h4t e heT
      obtain ⟨he1, he2⟩ := h1t e heT
      have hc1 : countOccs e.1 (scanReplace a.1 a.2 s0) = countOccs e.1 s0 :=
        countPreserved ha1 he1 ha2
          (fun c hc => (hfreshA c hc).2 e (List.mem_cons_of_mem a heT))
          (h2h e heT) s0
      have hc2 : countOccs e.2 (scanReplace a.1 a.2 s0) = countOccs e.2 s0 :=
        countPreserved ha1 he2 ha2
          (fun c hc => (h4h e heT) c hc)
          (nonOverlapOfDisjoint ha1 he2
            (fun c hc =>
              ((h3 e (List.mem_cons_of_mem a heT)) c hc).2 a
                (List.mem_cons_self a T')))
          s0
      rw [happ]
      exact ⟨hres.1, by rw [hres.2, hc1, hc2]⟩

theorem getSub_nil (m b a : List Char) : getSub m b a [] = [] := rfl

theorem getSub_single (m b a : List Char) (c : Char) : getSub m b a [c] = [c] := rfl

theorem getSub_cons_two (m b a : List Char) (c x : Char) (r : List Char) :
    getSub m b a (c :: x :: r) =
      (if c = '$' then
        if x = '$' then '$' :: getSub m b a r
        else if x = '&' then m ++ getSub m b a r
        else if x = '\x60' then b ++ getSub m b a r
        else if x = '\x27' then a ++ getSub m b a r
        else '$' :: getSub m b a (x :: r)
      else c :: getSub m b a (x :: r)) := rfl

theorem getSub_cons_ne (m b a : List Char) {c : Char} (h : c ≠ '$') :
    ∀ r, getSub m b a (c :: r) = c :: getSub m b a r := by
  intro r
  cases r with
  | nil => rfl
  | cons x r' => rw [getSub_cons_two, if_neg h]

theorem getSub_dd (m b a : List Char) (r : List Char) :
    getSub m b a ('$' :: '$' :: r) = '$' :: getSub m b a r := by
  rw [getSub_cons_two]
  simp

theorem getSub_amp (m b a : List Char) (r : List Char) :
    getSub m b a ('$' :: '&' :: r) = m ++ getSub m b a r := by
  rw [getSub_cons_two]
  simp

theorem getSub_bq (m b a : List Char) (r : List Char) :
    getSub m b a ('$' :: '\x60' :: r) = b ++ getSub m b a r := by
  rw [getSub_cons_two]
  simp

theorem getSub_sq (m b a : List Char) (r : List Char) :
    getSub m b a ('$' :: '\x27' :: r) = a ++ getSub m b a r := by
  rw [getSub_cons_two]
  simp

theorem getSub_dother (m b a : List Char) {x : Char} (h1 : x ≠ '$') (h2 : x ≠ '&')
    (h3 : x ≠ '\x60') (h4 : x ≠ '\x27') (r : List Char) :
    getSub m b a ('$' :: x :: r) = '$' :: getSub m b a (x :: r) := by
  rw [getSub_cons_two]
  simp [h1, h2, h3, h4]

theorem getSub_noDollar (m b a : List Char) :
    ∀ w, '$' ∉ w → getSub m b a w = w := by
  intro w
  induction w with
  | nil => intro _; rfl
  | cons c rest ih =>
    intro h
    have hc : c ≠ '$' := fun he => h (by rw [← he]; exact List.mem_cons_self c rest)
    rw [getSub_cons_ne m b a hc rest, ih (fun hm => h (List.mem_cons_of_mem c hm))]

theorem getSub_append_left (m b a : List Char) :
    ∀ (q u : List Char), '$' ∉ q → getSub m b a (q ++ u) = q ++ getSub m b a u := by
  intro q
  induction q with
  | nil => intro u _; rfl
  | cons c q' ih =>
    intro u hq
    have hc : c ≠ '$' := fun he => hq (by rw [← he]; exact List.mem_cons_self c q')
    rw [List.cons_append, getSub_cons_ne m b a hc (q' ++ u),
      ih u (fun hm => hq (List.mem_cons_of_mem c hm)), List.cons_append]

theorem infixAppendLeft {q a b : List Char} (h : q <:+: a) : q <:+: a ++ b := by
  obtain ⟨s1, s2, h12⟩ := h
  exact ⟨s1, s2 ++ b, by rw [← List.append_assoc (s1 ++ q) s2 b, h12]⟩

theorem getSubInfix (m b a : List Char) {q : List Char} (hdq : '$' ∉ q)
    (hh1 : q.take 1 ≠ ['&']) (hh2 : q.take 1 ≠ ['\x60']) (hh3 : q.take 1 ≠ ['\x27']) :
    ∀ w, q <:+: w → q <:+: getSub m b a w := by
  by_cases hq0 : q = []
  · intro w _
    subst hq0
    exact List.nil_infix
  obtain ⟨q0, q'', rfl⟩ : ∃ c t, q = c :: t := by
    cases q with
    | nil => exact absurd rfl hq0
    | cons c t => exact ⟨c, t, rfl⟩
  have hq0d : q0 ≠ '$' := fun he =>
    hdq (by rw [← he]; exact List.mem_cons_self q0 q'')
  have hq0amp : q0 ≠ '&' := fun he => hh1 (by simp [List.take_succ_cons, he])
  have hq0bq : q0 ≠ '\x60' := fun he => hh2 (by simp [List.take_succ_cons, he])
  have hq0sq : q0 ≠ '\x27' := fun he => hh3 (by simp [List.take_succ_cons, he])
  have main : ∀ n w, w.length ≤ n →
      (q0 :: q'') <:+: w → (q0 :: q'') <:+: getSub m b a w := by
    intro n
    induction n with
    | zero =>
      intro w hw hinf
      have hwn : w = [] := List.length_eq_zero.mp (Nat.le_zero.mp hw)
      subst hwn
      obtain ⟨s1, s2, h12⟩ := hinf
      have hlen := congrArg List.length h12
      simp only [List.length_append, List.length_cons, List.length_nil] at hlen
      omega
    | succ n ih =>
      intro w hw hinf
      cases w with
      | nil =>
        obtain ⟨s1, s2, h12⟩ := hinf
        have hlen := congrArg List.length h12
        simp only [List.length_append, List.length_cons, List.length_nil] at hlen
        omega
      | cons c rest =>
        cases rest with
        | nil =>
          rw [getSub_single]
          exact hinf
        | cons x r =>
          by_cases hc : c = '$'
          · subst hc
            rcases infixConsCases hinf with hpre | hinf2
            · exfalso
              obtain ⟨u, hu⟩ := hpre
              rw [List.cons_append] at hu
              injection hu with h1 _
              exact hq0d h1
            by_cases hx1 : x = '$'
            · subst hx1
              rw [getSub_dd]
              rcases infixConsCases hinf2 with hpre2 | hinf3
              · exfalso
                obtain ⟨u, hu⟩ := hpre2
                rw [List.cons_append] at hu
                injection hu with h1 _
                exact hq0d h1
              · refine List.infix_cons (ih r ?_ hinf3)
                simp only [List.length_cons] at hw
                omega
            by_cases hx2 : x = '&'
            · subst hx2
              rw [getSub_amp]
              rcases infixConsCases hinf2 with hpre2 | hinf3
              · exfalso
                obtain ⟨u, hu⟩ := hpre2
                rw [List.cons_append] at hu
                injection hu with h1 _
                exact hq0amp h1
              · refine infixAppendRight (ih r ?_ hinf3)
                simp only [List.length_cons] at hw
                omega
            by_cases hx3 : x = '\x60'
            · subst hx3
              rw [getSub_bq]
              rcases infixConsCases hinf2 with hpre2 | hinf3
              · exfalso
                obtain ⟨u, hu⟩ := hpre2
                rw [List.cons_append] at hu
                injection hu with h1 _
                exact hq0bq h1
              · refine infixAppendRight (ih r ?_ hinf3)
                simp only [List.length_cons] at hw
                omega
            by_cases hx4 : x = '\x27'
            · subst hx4
              rw [getSub_sq]
              rcases infixConsCases hinf2 with hpre2 | hinf3
              · exfalso
                obtain ⟨u, hu⟩ := hpre2
                rw [List.cons_append] at hu
                injection hu with h1 _
                exact hq0sq h1
              · refine infixAppendRight (ih r ?_ hinf3)
                simp only [List.length_cons] at hw
                omega
            · rw [getSub_dother m b a hx1 hx2 hx3 hx4 r]
              refine List.infix_cons (ih (x :: r) ?_ hinf2)
              simp only [List.length_cons] at hw ⊢
              omega
          · rcases infixConsCases hinf with hpre | hinf2
            · obtain ⟨u, hu⟩ := hpre
              rw [← hu, getSub_append_left m b a (q0 :: q'') u hdq]
              exact ⟨[], getSub m b a u, by simp⟩
            · rw [getSub_cons_ne m b a hc (x :: r)]
              refine List.infix_cons (ih (x :: r) ?_ hinf2)
              simp only [List.length_cons] at hw ⊢
              omega
  intro w
  exact main w.length w (le_refl _)

theorem replF_nil (p v : List Char) (pre : List Char) (n : Nat) :
    replF p v pre n [] = [] := by
  cases n <;> rfl

theorem replF_fuel (p v : List Char) :
    ∀ n m pre s, s.length ≤ n → s.length ≤ m →
      replF p v pre n s = replF p v pre m s := by
  intro n
  induction n with
  | zero =>
    intro m pre s hn _
    have hs : s = [] := List.length_eq_zero.mp (Nat.le_zero.mp hn)
    subst hs
    rw [replF_nil, replF_nil]
  | succ n ih =>
    intro m pre s hn hm
    cases s with
    | nil => rw [replF_nil, replF_nil]
    | cons c t =>
      cases m with
      | zero => exact absurd hm (by simp)
      | succ m =>
        show (if p ≠ [] ∧ p <+: (c :: t) then
                getSub p pre ((c :: t).drop p.length) v ++
                  replF p v (pre ++ p) n ((c :: t).drop p.length)
              else c :: replF p v (pre ++ [c]) n t) =
             (if p ≠ [] ∧ p <+: (c :: t) then
                getSub p pre ((c :: t).drop p.length) v ++
                  replF p v (pre ++ p) m ((c :: t).drop p.length)
              else c :: replF p v (pre ++ [c]) m t)
        by_cases h : p ≠ [] ∧ p <+: (c :: t)
        · rw [if_pos h, if_pos h]
          have hp : 1 ≤ p.length := List.length_pos.mpr h.1
          have hd : ((c :: t).drop p.length).length ≤ n := by
            simp only [List.length_drop, List.length_cons]
            simp only [List.length_cons] at hn
            omega
          have hd' : ((c :: t).drop p.length).length ≤ m := by
            simp only [List.length_drop, List.length_cons]
            simp only [List.length_cons] at hm
            omega
          rw [ih _ _ _ hd hd']
        · rw [if_neg h, if_neg h]
          have h1 : t.length ≤ n := by
            simp only [List.length_cons] at hn; omega
          have h2 : t.length ≤ m := by
            simp only [List.length_cons] at hm; omega
          rw [ih _ _ _ h1 h2]

theorem replPre_nil (p v pre : List Char) : replPre p v pre [] = [] := rfl

theorem replPre_cons_pos {p : List Char} (v pre : List Char) {c : Char} {s : List Char}
    (h : p ≠ [] ∧ p <+: (c :: s)) :
    replPre p v pre (c :: s) =
      getSub p pre ((c :: s).drop p.length) v ++
        replPre p v (pre ++ p) ((c :: s).drop p.length) := by
  show (if p ≠ [] ∧ p <+: (c :: s) then
          getSub p pre ((c :: s).drop p.length) v ++
            replF p v (pre ++ p) s.length ((c :: s).drop p.length)
        else c :: replF p v (pre ++ [c]) s.length s) = _
  rw [if_pos h]
  unfold replPre
  congr 1
  have hp : 1 ≤ p.length := List.length_pos.mpr h.1
  exact replF_fuel p v s.length ((c :: s).drop p.length).length (pre ++ p) _
    (by simp only [List.length_drop, List.length_cons]; omega) (le_refl _)

theorem replPre_cons_neg {p : List Char} (v pre : List Char) {c : Char} {s : List Char}
    (h : ¬(p ≠ [] ∧ p <+: (c :: s))) :
    replPre p v pre (c :: s) = c :: replPre p v (pre ++ [c]) s := by
  show (if p ≠ [] ∧ p <+: (c :: s) then
          getSub p pre ((c :: s).drop p.length) v ++
            replF p v (pre ++ p) s.length ((c :: s).drop p.length)
        else c :: replF p v (pre ++ [c]) s.length s) = _
  rw [if_neg h]
  rfl

theorem replPreEqScan {p v : List Char} (hv : '$' ∉ v) :
    ∀ (s pre : List Char), replPre p v pre s = scanReplace p v s := by
  have main : ∀ n s, s.length ≤ n → ∀ pre : List Char,
      replPre p v pre s = scanReplace p v s := by
    intro n
    induction n with
    | zero =>
      intro s hs pre
      have hsn : s = [] := List.length_eq_zero.mp (Nat.le_zero.mp hs)
      subst hsn
      rw [replPre_nil, scanReplace_nil]
    | succ n ih =>
      intro s hs pre
      cases s with
      | nil => rw [replPre_nil, scanReplace_nil]
      | cons c t =>
        by_cases hg : p ≠ [] ∧ p <+: (c :: t)
        · have hp : 1 ≤ p.length := List.length_pos.mpr hg.1
          rw [replPre_cons_pos v pre hg, scanReplace_cons_pos v hg,
            getSub_noDollar p pre ((c :: t).drop p.length) v hv,
            ih _ ?_ (pre ++ p)]
          simp only [List.length_drop, List.length_cons]
          simp only [List.length_cons] at hs
          omega
        · rw [replPre_cons_neg v pre hg, scanReplace_cons_neg v hg, ih t ?_ (pre ++ [c])]
          simp only [List.length_cons] at hs
          omega
  intro s pre
  exact main s.length s (le_refl _) pre

theorem replaceAllEqScan {p v : List Char} (hv : '$' ∉ v) (s : List Char) :
    replaceAll p v s = scanReplace p v s :=
  replPreEqScan hv s []

theorem applyEqScan :
    ∀ (T : List (List Char × List Char)) (s : List Char),
      (∀ e ∈ T, '$' ∉ e.2) → applyReplacements T s = scanApply T s := by
  intro T
  induction T with
  | nil => intro s _; rfl
  | cons a T' ih =>
    intro s h
    have h1 : applyReplacements (a :: T') s =
        applyReplacements T' (replaceAll a.1 a.2 s) := rfl
    have h2 : scanApply (a :: T') s = scanApply T' (scanReplace a.1 a.2 s) := rfl
    rw [h1, h2, replaceAllEqScan (h a (List.mem_cons_self a T')) s,
      ih _ (fun e he => h e (List.mem_cons_of_mem a he))]

theorem appendNoMatchPre {p v : List Char} :
    ∀ (q : List Char), (∀ r, r <:+ q → r ≠ [] → ¬ p <+: r ∧ ¬ r <+: p) →
      ∀ (pre u : List Char),
        replPre p v pre (q ++ u) = q ++ replPre p v (pre ++ q) u := by
  intro q
  induction q with
  | nil =>
    intro _ pre u
    simp
  | cons c q' ih =>
    intro h pre u
    rw [List.cons_append]
    have hg : ¬(p ≠ [] ∧ p <+: c :: (q' ++ u)) := by
      rintro ⟨hp, hpre⟩
      have hpre' : p <+: (c :: q') ++ u := by rw [List.cons_append]; exact hpre
      rcases prefixAppendCases hpre' with h1 | h1
      · exact (h (c :: q') (List.suffix_refl _) (by simp)).1 h1
      · exact (h (c :: q') (List.suffix_refl _) (by simp)).2 h1
    rw [replPre_cons_neg v pre hg,
      ih (fun r hr hrne => h r (hr.trans (List.suffix_cons c q')) hrne) (pre ++ [c]) u]
    simp

theorem infixPreservedPre {p v q : List Char} (hno : NonOverlap p q) :
    ∀ (s pre : List Char), q <:+: s → q <:+: replPre p v pre s := by
  by_cases hq : q = []
  · intro s pre _
    subst hq
    exact List.nil_infix
  have main : ∀ n s, s.length ≤ n → ∀ pre : List Char,
      q <:+: s → q <:+: replPre p v pre s := by
    intro n
    induction n with
    | zero =>
      intro s hs pre hinf
      have hsn : s = [] := List.length_eq_zero.mp (Nat.le_zero.mp hs)
      subst hsn
      exfalso
      obtain ⟨s1, s2, h12⟩ := hinf
      have hlen := congrArg List.length h12
      simp only [List.length_append, List.length_nil] at hlen
      exact hq (List.length_eq_zero.mp (by omega))
    | succ n ih =>
      intro s hs pre hinf
      cases s with
      | nil =>
        exfalso
        obtain ⟨s1, s2, h12⟩ := hinf
        have hlen := congrArg List.length h12
        simp only [List.length_append, List.length_nil] at hlen
        exact hq (List.length_eq_zero.mp (by omega))
      | cons c t =>
        by_cases hg : p ≠ [] ∧ p <+: (c :: t)
        · rw [replPre_cons_pos v pre hg]
          obtain ⟨u, hu⟩ := hg.2
          rw [← hu] at hinf
          have hdrop : (c :: t).drop p.length = u := by rw [← hu, List.drop_left]
          have hul : u.length ≤ n := by
            have hlu := congrArg List.length hu
            simp only [List.length_append, List.length_cons] at hlu
            simp only [List.length_cons] at hs
            have hp : 1 ≤ p.length := List.length_pos.mpr hg.1
            omega
          rcases infixAppendCases hinf with h1 | h1 | ⟨q1, q2, he, hn1, _, hsuf, _⟩
          · exfalso
            obtain ⟨s1, s2, h12⟩ := h1
            have hsuf2 : (q ++ s2) <:+ p := ⟨s1, by rw [← List.append_assoc, h12]⟩
            have hne : q ++ s2 ≠ [] := by
              intro hcon
              rcases List.append_eq_nil.mp hcon with ⟨hq1, _⟩
              exact hq hq1
            exact (hno.1 (q ++ s2) ((List.mem_tails _ _).mpr hsuf2) hne).2 ⟨s2, rfl⟩
          · have hres := ih u hul (pre ++ p) h1
            rw [hdrop]
            exact infixAppendRight hres
          · exfalso
            exact (hno.1 q1 ((List.mem_tails _ _).mpr hsuf) hn1).1 ⟨q2, he.symm⟩
        · rcases infixConsCases hinf with h1 | h1
          · obtain ⟨u, hu⟩ := h1
            have hrw : replPre p v pre (c :: t) = q ++ replPre p v (pre ++ q) u := by
              rw [← hu]
              exact appendNoMatchPre q
                (fun r hr hrne => hno.2 r ((List.mem_tails _ _).mpr hr) hrne) pre u
            rw [hrw]
            exact ⟨[], replPre p v (pre ++ q) u, by simp⟩
          · rw [replPre_cons_neg v pre hg]
            refine List.infix_cons (ih t ?_ (pre ++ [c]) h1)
            simp only [List.length_cons] at hs
            omega
  intro s pre
  exact main s.length s (le_refl _) pre

theorem valueTokenInserted {p v q : List Char} (hp : p ≠ []) (hdq : '$' ∉ q)
    (hh1 : q.take 1 ≠ ['&']) (hh2 : q.take 1 ≠ ['\x60']) (hh3 : q.take 1 ≠ ['\x27'])
    (hqv : q <:+: v) :
    ∀ (s pre : List Char), p <:+: s → q <:+: replPre p v pre s := by
  have main : ∀ n s, s.length ≤ n → ∀ pre : List Char,
      p <:+: s → q <:+: replPre p v pre s := by
    intro n
    induction n with
    | zero =>
      intro s hs pre hinf
      have hsn : s = [] := List.length_eq_zero.mp (Nat.le_zero.mp hs)
      subst hsn
      exfalso
      obtain ⟨s1, s2, h12⟩ := hinf
      have hlen := congrArg List.length h12
      simp only [List.length_append, List.length_nil] at hlen
      exact hp (List.length_eq_zero.mp (by omega))
    | succ n ih =>
      intro s hs pre hinf
      cases s with
      | nil =>
        exfalso
        obtain ⟨s1, s2, h12⟩ := hinf
        have hlen := congrArg List.length h12
        simp only [List.length_append, List.length_nil] at hlen
        exact hp (List.length_eq_zero.mp (by omega))
      | cons c t =>
        by_cases hg : p ≠ [] ∧ p <+: (c :: t)
        · rw [replPre_cons_pos v pre hg]
          exact infixAppendLeft
            (getSubInfix p pre ((c :: t).drop p.length) hdq hh1 hh2 hh3 v hqv)
        · rcases infixConsCases hinf with h1 | h1
          · exact absurd ⟨hp, h1⟩ hg
          · rw [replPre_cons_neg v pre hg]
            refine List.infix_cons (ih t ?_ (pre ++ [c]) h1)
            simp only [List.length_cons] at hs
            omega
  intro s pre
  exact main s.length s (le_refl _) pre

theorem foldInfixPreservedF {q : List Char} :
    ∀ (T : List (List Char × List Char)) (s : List Char),
      (∀ e ∈ T, NonOverlap e.1 q) → q <:+: s → q <:+: applyReplacements T s := by
  intro T
  induction T with
  | nil => intro s _ h; exact h
  | cons a T' ih =>
    intro s h hin
    exact ih _ (fun e he => h e (List.mem_cons_of_mem a he))
      (infixPreservedPre (h a (List.mem_cons_self a T')) s [] hin)

theorem chainHelper (T1 T2 : List (List Char × List Char)) (P1 P2 : List (List Char))
    (hm1 : T1.map Prod.fst = P1) (hm2 : T2.map Prod.fst = P2)
    (p v q content : List Char) (hp : p ≠ []) (hdq : '$' ∉ q)
    (hh1 : q.take 1 ≠ ['&']) (hh2 : q.take 1 ≠ ['\x60']) (hh3 : q.take 1 ≠ ['\x27'])
    (h1 : ∀ r ∈ P1, NonOverlap r p)
    (h2 : ∀ r ∈ P2, NonOverlap r q)
    (hc : p <:+: content) (hv : q <:+: v) :
    q <:+: applyReplacements (T1 ++ (p, v) :: T2) content := by
  have h1' : ∀ e ∈ T1, NonOverlap e.1 p := fun e he =>
    h1 e.1 (hm1 ▸ List.mem_map_of_mem Prod.fst he)
  have h2' : ∀ e ∈ T2, NonOverlap e.1 q := fun e he =>
    h2 e.1 (hm2 ▸ List.mem_map_of_mem Prod.fst he)
  have hfold : applyReplacements (T1 ++ (p, v) :: T2) content =
      applyReplacements T2 (replaceAll p v (applyReplacements T1 content)) := by
    simp [applyReplacements, List.foldl_append]
  rw [hfold]
  exact foldInfixPreservedF T2 _ h2'
    (valueTokenInserted hp hdq hh1 hh2 hh3 hv _ [] (foldInfixPreservedF T1 _ h1' hc))

/-- C1 (amended): `replaceInFile` substitutes by one sequential
`replaceAll` pass per token, each pass feeding its replacement value
through the ECMAScript `GetSubstitution` template expansion, so the
claimed exhaustiveness holds whenever the values cannot interfere with the
scan: for every content and every table whose values are nonempty, contain
no `'$'` (so `GetSubstitution` inserts them verbatim), and use only
characters that occur in no placeholder token, not in the original content
and in no other value, the result contains zero occurrences of each token,
and each replacement value appears exactly as many additional times as its
token occurred in the original content (whether zero, one, or many).
Without such a hypothesis the claim is false (see the counterexample): a
value can reintroduce a token, forge one across replacement boundaries, or
expand a `'$'` escape. -/
theorem substitution_exhaustive (content v1 v2 v3 v4 v5 : List Char)
    (h : ValuesOk content v1 v2 v3 v4 v5) :
    ∀ e ∈ theReplacements v1 v2 v3 v4 v5,
      countOccs e.1 (applyReplacements (theReplacements v1 v2 v3 v4 v5) content) = 0 ∧
      countOccs e.2 (applyReplacements (theReplacements v1 v2 v3 v4 v5) content) =
        countOccs e.2 content + countOccs e.1 content := by
  obtain ⟨hv, hpw⟩ := h
  have hv1 := hv v1 (by simp)
  have hv2 := hv v2 (by simp)
  have hv3 := hv v3 (by simp)
  have hv4 := hv v4 (by simp)
  have hv5 := hv v5 (by simp)
  obtain ⟨p1, hr1⟩ := List.pairwise_cons.mp hpw
  obtain ⟨p2, hr2⟩ := List.pairwise_cons.mp hr1
  obtain ⟨p3, hr3⟩ := List.pairwise_cons.mp hr2
  obtain ⟨p4, _⟩ := List.pairwise_cons.mp hr3
  have hbr : applyReplacements (theReplacements v1 v2 v3 v4 v5) content =
      scanApply (theReplacements v1 v2 v3 v4 v5) content := by
    refine applyEqScan _ _ ?_
    intro e he
    simp only [theReplacements] at he
    fin_cases he
    · exact hv1.2.1
    · exact hv2.2.1
    · exact hv3.2.1
    · exact hv4.2.1
    · exact hv5.2.1
  rw [hbr]
  refine tableCounts (theReplacements v1 v2 v3 v4 v5) content ?_ ?_ ?_ ?_
  · intro e he
    simp only [theReplacements] at he
    fin_cases he
    · exact ⟨(by decide : tokPackage ≠ []), hv1.1⟩
    · exact ⟨(by decide : tokRepo ≠ []), hv2.1⟩
    · exact ⟨(by decide : tokUser ≠ []), hv3.1⟩
    · exact ⟨(by decide : tokDesc ≠ []), hv4.1⟩
    · exact ⟨(by decide : tokAuthor ≠ []), hv5.1⟩
  · simp only [theReplacements]
    refine List.Pairwise.cons ?_ (List.Pairwise.cons ?_ (List.Pairwise.cons ?_
      (List.Pairwise.cons ?_ (List.Pairwise.cons ?_ List.Pairwise.nil))))
    · intro e he
      fin_cases he
      · exact (by decide : NonOverlap tokPackage tokRepo)
      · exact (by decide : NonOverlap tokPackage tokUser)
      · exact (by decide : NonOverlap tokPackage tokDesc)
      · exact (by decide : NonOverlap tokPackage tokAuthor)
    · intro e he
      fin_cases he
      · exact (by decide : NonOverlap tokRepo tokUser)
      · exact (by decide : NonOverlap tokRepo tokDesc)
      · exact (by decide : NonOverlap tokRepo tokAuthor)
    · intro e he
      fin_cases he
      · exact (by decide : NonOverlap tokUser tokDesc)
      · exact (by decide : NonOverlap tokUser tokAuthor)
    · intro e he
      fin_cases he
      · exact (by decide : NonOverlap tokDesc tokAuthor)
    · intro e he; exact absurd he (List.not_mem_nil e)
  · intro e he
    simp only [theReplacements] at he
    fin_cases he
    · intro c hc
      refine ⟨(hv1.2.2 c hc).1, ?_⟩
      intro f hf
      simp only [theReplacements] at hf
      fin_cases hf <;> exact (hv1.2.2 c hc).2 _ (by simp [toks])
    · intro c hc
      refine ⟨(hv2.2.2 c hc).1, ?_⟩
      intro f hf
      simp only [theReplacements] at hf
      fin_cases hf <;> exact (hv2.2.2 c hc).2 _ (by simp [toks])
    · intro c hc
      refine ⟨(hv3.2.2 c hc).1, ?_⟩
      intro f hf
      simp only [theReplacements] at hf
      fin_cases hf <;> exact (hv3.2.2 c hc).2 _ (by simp [toks])
    · intro c hc
      refine ⟨(hv4.2.2 c hc).1, ?_⟩
      intro f hf
      simp only [theReplacements] at hf
      fin_cases hf <;> exact (hv4.2.2 c hc).2 _ (by simp [toks])
    · intro c hc
      refine ⟨(hv5.2.2 c hc).1, ?_⟩
      intro f hf
      simp only [theReplacements] at hf
      fin_cases hf <;> exact (hv5.2.2 c hc).2 _ (by simp [toks])
  · simp only [theReplacements]
    refine List.Pairwise.cons ?_ (List.Pairwise.cons ?_ (List.Pairwise.cons ?_
      (List.Pairwise.cons ?_ (List.Pairwise.cons ?_ List.Pairwise.nil))))
    · intro e he
      fin_cases he
      · exact p1 v2 (by simp)
      · exact p1 v3 (by simp)
      · exact p1 v4 (by simp)
      · exact p1 v5 (by simp)
    · intro e he
      fin_cases he
      · exact p2 v3 (by simp)
      · exact p2 v4 (by simp)
      · exact p2 v5 (by simp)
    · intro e he
      fin_cases he
      · exact p3 v4 (by simp)
      · exact p3 v5 (by simp)
    · intro e he
      fin_cases he
      · exact p4 v5 (by simp)
    · intro e he; exact absurd he (List.not_mem_nil e)

/-- C1 counterexample: with content `'\x7b\x7bAUTHOR\x7d\x7d'` and the
`AUTHOR` value equal to its own token (other values `'x'`), the
substituted result still contains one occurrence of the `AUTHOR` token, so
"zero occurrences of each placeholder token" fails for an unrestricted
replacement table. -/
theorem substitution_cex :
    countOccs tokAuthor
      (applyReplacements
        (theReplacements ("x".toList) ("x".toList) ("x".toList) ("x".toList) tokAuthor)
        tokAuthor) = 1 := by decide

/-- C1 witness: the amended theorem applied to content
`'\x7b\x7bPACKAGE_NAME\x7d\x7d'` with digit values, instantiated at the
`PACKAGE_NAME` entry. -/
theorem substitution_exhaustive_witness :
    countOccs tokPackage
      (applyReplacements
        (theReplacements ("0".toList) ("1".toList) ("2".toList) ("3".toList) ("4".toList))
        tokPackage) = 0 ∧
    countOccs ("0".toList)
      (applyReplacements
        (theReplacements ("0".toList) ("1".toList) ("2".toList) ("3".toList) ("4".toList))
        tokPackage) =
      countOccs ("0".toList) tokPackage + countOccs tokPackage tokPackage :=
  substitution_exhaustive tokPackage ("0".toList) ("1".toList) ("2".toList)
    ("3".toList) ("4".toList) (by decide) (tokPackage, "0".toList) (by decide)

/-- C9: `replaceInFile` runs one `replaceAll` pass per table key in the
fixed insertion order of the object literal, so a token occurrence
contributed by the value of key `i` survives to the final output whenever
that token's own key `j` comes at or before `i` in the order: its pass has
already run (or, for `j = i`, never rescans the inserted value),
`GetSubstitution` copies the dollar-free token literally out of the value,
and later passes replace only their own tokens, which cannot overlap it. -/
theorem substitution_order (content v1 v2 v3 v4 v5 : List Char) (i j : Fin 5)
    (hij : j ≤ i) (hc : tokAt i <:+: content)
    (hv : tokAt j <:+: valAt v1 v2 v3 v4 v5 i) :
    tokAt j <:+: applyReplacements (theReplacements v1 v2 v3 v4 v5) content := by
  fin_cases i <;> fin_cases j
  · exact chainHelper [] [(tokRepo, v2), (tokUser, v3), (tokDesc, v4), (tokAuthor, v5)]
      [] [tokRepo, tokUser, tokDesc, tokAuthor] rfl rfl
      tokPackage v1 tokPackage content (by decide) (by decide) (by decide) (by decide) (by decide) (by decide) (by decide) hc hv
  · exact absurd hij (by decide)
  · exact absurd hij (by decide)
  · exact absurd hij (by decide)
  · exact absurd hij (by decide)
  · exact chainHelper [(tokPackage, v1)] [(tokUser, v3), (tokDesc, v4), (tokAuthor, v5)]
      [tokPackage] [tokUser, tokDesc, tokAuthor] rfl rfl
      tokRepo v2 tokPackage content (by decide) (by decide) (by decide) (by decide) (by decide) (by decide) (by decide) hc hv
  · exact chainHelper [(tokPackage, v1)] [(tokUser, v3), (tokDesc, v4), (tokAuthor, v5)]
      [tokPackage] [tokUser, tokDesc, tokAuthor] rfl rfl
      tokRepo v2 tokRepo content (by decide) (by decide) (by decide) (by decide) (by decide) (by decide) (by decide) hc hv
  · exact absurd hij (by decide)
  · exact absurd hij (by decide)
  · exact absurd hij (by decide)
  · exact chainHelper [(tokPackage, v1), (tokRepo, v2)] [(tokDesc, v4), (tokAuthor, v5)]
      [tokPackage, tokRepo] [tokDesc, tokAuthor] rfl rfl
      tokUser v3 tokPackage content (by decide) (by decide) (by decide) (by decide) (by decide) (by decide) (by decide) hc hv
  · exact chainHelper [(tokPackage, v1), (tokRepo, v2)] [(tokDesc, v4), (tokAuthor, v5)]
      [tokPackage, tokRepo] [tokDesc, tokAuthor] rfl rfl
      tokUser v3 tokRepo content (by decide) (by decide) (by decide) (by decide) (by decide) (by decide) (by decide) hc hv
  · exact chainHelper [(tokPackage, v1), (tokRepo, v2)] [(tokDesc, v4), (tokAuthor, v5)]
      [tokPackage, tokRepo] [tokDesc, tokAuthor] rfl rfl
      tokUser v3 tokUser content (by decide) (by decide) (by decide) (by decide) (by decide) (by decide) (by decide) hc hv
  · exact absurd hij (by decide)
  · exact absurd hij (by decide)
  · exact chainHelper [(tokPackage, v1), (tokRepo, v2), (tokUser, v3)] [(tokAuthor, v5)]
      [tokPackage, tokRepo, tokUser] [tokAuthor] rfl rfl
      tokDesc v4 tokPackage content (by decide) (by decide) (by decide) (by decide) (by decide) (by decide) (by decide) hc hv
  · exact chainHelper [(tokPackage, v1), (tokRepo, v2), (tokUser, v3)] [(tokAuthor, v5)]
      [tokPackage, tokRepo, tokUser] [tokAuthor] rfl rfl
      tokDesc v4 tokRepo content (by decide) (by decide) (by decide) (by decide) (by decide) (by decide) (by decide) hc hv
  · exact chainHelper [(tokPackage, v1), (tokRepo, v2), (tokUser, v3)] [(tokAuthor, v5)]
      [tokPackage, tokRepo, tokUser] [tokAuthor] rfl rfl
      tokDesc v4 tokUser content (by decide) (by decide) (by decide) (by decide) (by decide) (by decide) (by decide) hc hv
  · exact chainHelper [(tokPackage, v1), (tokRepo, v2), (tokUser, v3)] [(tokAuthor, v5)]
      [tokPackage, tokRepo, tokUser] [tokAuthor] rfl rfl
      tokDesc v4 tokDesc content (by decide) (by decide) (by decide) (by decide) (by decide) (by decide) (by decide) hc hv
  · exact absurd hij (by decide)
  · exact chainHelper [(tokPackage, v1), (tokRepo, v2), (tokUser, v3), (tokDesc, v4)] []
      [tokPackage, tokRepo, tokUser, tokDesc] [] rfl rfl
      tokAuthor v5 tokPackage content (by decide) (by decide) (by decide) (by decide) (by decide) (by decide) (by decide) hc hv
  · exact chainHelper [(tokPackage, v1), (tokRepo, v2), (tokUser, v3), (tokDesc, v4)] []
      [tokPackage, tokRepo, tokUser, tokDesc] [] rfl rfl
      tokAuthor v5 tokRepo content (by decide) (by decide) (by decide) (by decide) (by decide) (by decide) (by decide) hc hv
  · exact chainHelper [(tokPackage, v1), (tokRepo, v2), (tokUser, v3), (tokDesc, v4)] []
      [tokPackage, tokRepo, tokUser, tokDesc] [] rfl rfl
      tokAuthor v5 tokUser content (by decide) (by decide) (by decide) (by decide) (by decide) (by decide) (by decide) hc hv
  · exact chainHelper [(tokPackage, v1), (tokRepo, v2), (tokUser, v3), (tokDesc, v4)] []
      [tokPackage, tokRepo, tokUser, tokDesc] [] rfl rfl
      tokAuthor v5 tokDesc content (by decide) (by decide) (by decide) (by decide) (by decide) (by decide) (by decide) hc hv
  · exact chainHelper [(tokPackage, v1), (tokRepo, v2), (tokUser, v3), (tokDesc, v4)] []
      [tokPackage, tokRepo, tokUser, tokDesc] [] rfl rfl
      tokAuthor v5 tokAuthor content (by decide) (by decide) (by decide) (by decide) (by decide) (by decide) (by decide) hc hv

/-- C9 witness: the `PACKAGE_NAME` value containing its own token leaves
that token in the final output. -/
theorem substitution_order_witness :
    tokPackage <:+: applyReplacements
      (theReplacements tokPackage ("b".toList) ("c".toList) ("d".toList) ("e".toList))
      tokPackage :=
  substitution_order tokPackage tokPackage ("b".toList) ("c".toList) ("d".toList)
    ("e".toList) 0 0 (by decide) (by decide) (by decide)

/-- C7 witness: the noninterference theorem applied at two distinct secret
values. -/
theorem setRepoSecretCmd_stdin_only_witness :
    (setRepoSecretCmd ("o/r".toList) ("NPM_TOKEN".toList) ("v".toList)).argv =
      (setRepoSecretCmd ("o/r".toList) ("NPM_TOKEN".toList) ("w".toList)).argv ∧
    (setRepoSecretCmd ("o/r".toList) ("NPM_TOKEN".toList) ("v".toList)).stdinData =
      some ("v".toList) :=
  setRepoSecretCmd_stdin_only ("o/r".toList) ("NPM_TOKEN".toList) ("v".toList)
    ("w".toList)

/-- C10 witness: the answer `'N'` cancels setup. -/
theorem proceedCancelled_iff_witness : proceedCancelled ("N".toList) = true :=
  (proceedCancelled_iff ("N".toList)).mpr (by decide)
